import Mathlib

/-!
Verification development for the graph positional-encoding engine in
`src/lib/positional_encoding.py` of the `renonet` repository.

Matrices are row-major lists of rows over `ℚ` (exact arithmetic standing in
for floating point).  External library routines (the scipy eigensolvers and
the node2vec trainer) enter as oracle parameters; routines of the source file
itself, and the small library helpers whose behaviour the source relies on
(`scatter`-sum, `to_torch_csr_tensor` coalescing, `to_edge_index`,
`maybe_num_nodes`, `np.where`), are translated directly.
-/

/-- Row-major matrix over `ℚ`. -/
abbrev Mat := List (List ℚ)

/-- Total entry access `m[i][j]` with default `0`. -/
def entryM (m : Mat) (i j : Nat) : ℚ := (m.getD i []).getD j 0

/-- The `n × n` matrix whose `(i,j)` entry is `f i j`. -/
def mOfFn (n : Nat) (f : Nat → Nat → ℚ) : Mat :=
  (List.range n).map (fun i => (List.range n).map (fun j => f i j))

/-- Size in the numpy sense (`x.size`): total number of entries of a 2-D array. -/
def msize (m : Mat) : Nat := (m.map List.length).sum

def listMin : List ℚ → ℚ
  | [] => 0
  | x :: xs => xs.foldl min x

def listMax : List ℚ → ℚ
  | [] => 0
  | x :: xs => xs.foldl max x

/-- The block normalizer bound by line 293 of the source,
`lambda x: (x-x.min())/(x.max()-x.min()) if x.size>0 else x`.
Division by zero (a non-empty block of constant value) yields `0` in `ℚ`;
in the floating-point original it yields `NaN` — under neither reading does
a constant block normalize to maximum `1`. -/
def normBlock (x : Mat) : Mat :=
  if 0 < msize x then
    x.map (fun r => r.map (fun v =>
      (v - listMin x.flatten) / (listMax x.flatten - listMin x.flatten)))
  else x

/-- Model of `np.concatenate([a, b], axis=-1)`: defined only when the row counts
agree (numpy raises otherwise, modelled by `none`). -/
def hconcat2 (a b : Mat) : Option Mat :=
  if a.length = b.length then some (List.zipWith (fun r s => r ++ s) a b) else none

/-- The slice of `torch_geometric.data.Data` that the pipeline touches. -/
structure Data where
  edge_index : List (Nat × Nat)
  edge_weight : Option (List ℚ)
  num_nodes : Nat
  x : Option Mat
  attrs : List (String × Mat)
deriving DecidableEq

/-- Dictionary write `data[attr_name] = value` on the attribute store. -/
def setAttr (attrs : List (String × Mat)) (name : String) (v : Mat) :
    List (String × Mat) :=
  if attrs.any (fun p => p.1 == name) then
    attrs.map (fun p => if p.1 == name then (name, v) else p)
  else attrs ++ [(name, v)]

/-- Attribute lookup with default `[]`. -/
def getAttrD (d : Data) (name : String) : Mat :=
  (((d.attrs.find? (fun p => p.1 == name)).map Prod.snd)).getD []

/-- Translation of `add_node_attr` (source lines 126-137). -/
def add_node_attr (d : Data) (value : Mat) (attr_name : Option String) : Data :=
  match attr_name with
  | none =>
    match d.x with
    | some x0 => { d with x := some (List.zipWith (fun a b => a ++ b) x0 value) }
    | none => { d with x := some value }
  | some n => { d with attrs := setAttr d.attrs n value }

/-- Model of `torch_geometric.utils.loop.maybe_num_nodes` with `num_nodes=None`:
`int(edge_index.max()) + 1`, and `0` for an empty edge index. -/
def maybe_num_nodes (es : List (Nat × Nat)) : Nat :=
  es.foldl (fun acc e => max acc (max e.1 e.2 + 1)) 0

/-- Default edge weights: `torch.ones(num_edges)` when `edge_weight is None`
(lines 230-233). -/
def edge_weight_vals (d : Data) : List ℚ :=
  match d.edge_weight with
  | none => d.edge_index.map (fun _ => 1)
  | some w => w

/-- Model of `scatter(value, row, dim_size=N, reduce='sum')` at node `u`:
the total weight of the edges leaving `u`. -/
def outSum (d : Data) (u : Nat) : ℚ :=
  (((d.edge_index.zip (edge_weight_vals d)).filter
    (fun p => p.1.1 == u)).map Prod.snd).sum

/-- The per-edge transition values of lines 234-235:
`value = scatter(value, row, dim_size=N, reduce='sum').clamp(min=1)[row];`
`value = 1.0 / value`.  Note the original weight is overwritten: each edge
carries `1 / max 1 (outSum src)`, not `w / outSum src`. -/
def normVals (d : Data) : List ℚ :=
  d.edge_index.map (fun e => 1 / max 1 (outSum d e.1))

/-- Entry `(u,v)` of `to_torch_csr_tensor(data.edge_index, value)`: CSR
construction coalesces duplicate coordinates by summation. -/
def transFun (d : Data) (u v : Nat) : ℚ :=
  (((d.edge_index.zip (normVals d)).filter
    (fun p => p.1 == (u, v))).map Prod.snd).sum

/-- The sparse transition operator of line 241 as a dense table. -/
def transMat (d : Data) : Mat := mOfFn d.num_nodes (transFun d)

/-- The dense adjacency build of lines 238-239:
`adj = torch.zeros((N, N)); adj[row, col] = value` (duplicate coordinates:
last write wins). -/
def denseAdjMat (d : Data) : Mat :=
  (d.edge_index.zip (normVals d)).foldl
    (fun m p => m.set p.1.1 ((m.getD p.1.1 []).set p.1.2 p.2))
    (List.replicate d.num_nodes (List.replicate d.num_nodes 0))

/-- A transition-operator tensor: a dense `torch` tensor (together with the
`loop_index = torch.arange(N)` bound next to it) or a sparse CSR tensor. -/
inductive AdjT where
  | dense (m : Mat) (loop_index : List Nat)
  | sparse (m : Mat)
deriving DecidableEq

/-- The matrix held by a transition-operator tensor. -/
def AdjT.mat : AdjT → Mat
  | AdjT.dense m _ => m
  | AdjT.sparse m => m

/-- Lines 237-241 of `AddRandomWalkPE.forward`.  When `N <= 2000` the source
builds a dense transition matrix, but the next statement assigns the CSR
tensor to `adj` unconditionally (the `else` present in the upstream
implementation is missing here), so the dense build is dead and the sparse
representation is used for every graph. -/
def AddRandomWalkPE_adj (d : Data) : AdjT :=
  let _dense_dead : Option AdjT :=
    if d.num_nodes ≤ 2000 then
      some (AdjT.dense (denseAdjMat d) (List.range d.num_nodes))
    else none
  AdjT.sparse (transMat d)

/-- Modelled external (`torch_geometric.utils.to_edge_index`): the COO form
of a sparse tensor — coordinates and values of its nonzero entries in
row-major order. -/
def to_edge_index (m : Mat) : List (Nat × Nat) × List ℚ :=
  let es := (List.range m.length).flatMap (fun i =>
    (List.range ((m.getD i []).length)).filterMap (fun j =>
      if entryM m i j = 0 then none else some ((i, j), entryM m i j)))
  (es.map Prod.fst, es.map Prod.snd)

/-- Translation of `get_self_loop_attr` (source lines 91-124): the weights of the self-loops
`(i,i)` scattered into a zero vector of length `num_nodes`; missing
self-loops stay `0`; when `edge_attr` is `None` a vector of ones is used. -/
def get_self_loop_attr (edge_index : List (Nat × Nat))
    (edge_attr : Option (List ℚ)) (num_nodes : Nat) : List ℚ :=
  let pairs := match edge_attr with
    | some attr => edge_index.zip attr
    | none => edge_index.zip (edge_index.map (fun _ => (1 : ℚ)))
  let loop_pairs := pairs.filter (fun p => p.1.1 == p.1.2)
  loop_pairs.foldl (fun acc p => acc.set p.1.1 p.2)
    (List.replicate num_nodes 0)

/-- Translation of `get_pe` inside `AddRandomWalkPE.forward` (lines 243-246). -/
def get_pe (num_nodes : Nat) : AdjT → List ℚ
  | AdjT.sparse m =>
    get_self_loop_attr (to_edge_index m).1 (some (to_edge_index m).2) num_nodes
  | AdjT.dense m loop_index => loop_index.map (fun i => entryM m i i)

/-- Matrix product (the tensor `@` operator). -/
def matMul (a b : Mat) : Mat :=
  a.map (fun ra => (List.range ((b.getD 0 []).length)).map (fun j =>
    ((List.range ra.length).map (fun k => ra.getD k 0 * entryM b k j)).sum))

/-- Product `out @ adj` on tensors: a sparse left operand yields a sparse product, a
dense one stays dense. -/
def adjMul (out adj : AdjT) : AdjT :=
  match out with
  | AdjT.sparse m => AdjT.sparse (matMul m adj.mat)
  | AdjT.dense m li => AdjT.dense (matMul m adj.mat) li

/-- The loop of lines 248-252: `out = out @ adj` repeated, collecting
`get_pe(out)` after every multiplication. -/
def peLoop (num_nodes : Nat) (adj : AdjT) : AdjT → Nat → List (List ℚ)
  | _, 0 => []
  | out, k+1 =>
    let out2 := adjMul out adj
    get_pe num_nodes out2 :: peLoop num_nodes adj out2 k

/-- Model of `torch.stack(pe_list, dim=-1)`: row `u` of the result lists the `u`-th
entry of every collected diagonal. -/
def stackCols (num_nodes : Nat) (cols : List (List ℚ)) : Mat :=
  (List.range num_nodes).map (fun u => cols.map (fun c => c.getD u 0))

/-- The positional-encoding matrix computed by `AddRandomWalkPE.forward`
(lines 224-254): `num_nodes × walk_length`, column `t` the diagonal of the
`(t+1)`-st power of the transition operator. -/
def forwardPE (d : Data) (walk_length : Nat) : Mat :=
  let adj := AddRandomWalkPE_adj d
  let pe_list :=
    get_pe d.num_nodes adj :: peLoop d.num_nodes adj adj (walk_length - 1)
  stackCols d.num_nodes pe_list

/-- Translation of `AddRandomWalkPE.forward` (lines 224-257): computes the random-walk
positional encoding and attaches it to the data object under
`"random_walk_pe"`. -/
def AddRandomWalkPE_forward (walk_length : Nat) (d : Data) : Data :=
  add_node_attr d (forwardPE d walk_length) (some "random_walk_pe")

/-- Repeated product `M, M·M, M·M·M, …` — the mathematical shape
of the iteration `out = out @ adj`: `matPowNZ M t` is the `(t+1)`-st power
of `M`. -/
def matPowNZ (m : Mat) : Nat → Mat
  | 0 => m
  | t+1 => matMul (matPowNZ m t) m

/-- Entry function of the product of two `n × n` entry functions. -/
def mulFun (n : Nat) (f g : Nat → Nat → ℚ) (i j : Nat) : ℚ :=
  ((List.range n).map (fun k => f i k * g k j)).sum

/-- Entry function of `matPowNZ` over `n × n` entry functions. -/
def powFun (n : Nat) (f : Nat → Nat → ℚ) : Nat → Nat → Nat → ℚ
  | 0 => f
  | t+1 => mulFun n (powFun n f t) f

/-- The total normalized weight of the self-loops at `u` — the `(u,u)` entry
of the transition operator. -/
def normSelfLoopSum (d : Data) (u : Nat) : ℚ := transFun d u u

/-- Row sum of the transition operator at node `u`. -/
def rowSumTrans (d : Data) (u : Nat) : ℚ :=
  ((List.range d.num_nodes).map (fun v => entryM (transMat d) u v)).sum

/-- Out-degree of `u` in the edge list. -/
def outDeg (d : Data) (u : Nat) : Nat :=
  (d.edge_index.filter (fun e => e.1 == u)).length

/-- A complex scalar as returned by the scipy eigensolvers: (real, imaginary). -/
abbrev Cx := ℚ × ℚ

/-- Ordering of complex values in numpy (used by `argsort`): lexicographic on
(real part, imaginary part). -/
def cxLe (a b : Cx) : Prop := a.1 < b.1 ∨ (a.1 = b.1 ∧ a.2 ≤ b.2)

instance cxLe_decidable : DecidableRel cxLe := fun a b => by
  unfold cxLe; infer_instance

/-- Index comparison by eigenvalue key. -/
def keyLe (vals : List Cx) (i j : Nat) : Prop :=
  cxLe (vals.getD i (0, 0)) (vals.getD j (0, 0))

instance keyLe_decidable (vals : List Cx) : DecidableRel (keyLe vals) :=
  fun i j => by unfold keyLe; infer_instance

/-- Model of `eig_vals.argsort()`: the indices `0 .. len-1` sorted so that the
eigenvalues read off along them are ascending. -/
def argsortCx (vals : List Cx) : List Nat :=
  List.insertionSort (fun i j => keyLe vals i j) (List.range vals.length)

/-- The type of the external eigensolver (`scipy.sparse.linalg.eigs`/`eigsh`
applied to the symmetric-normalized Laplacian `get_laplacian(edge_index,
normalization='sym', num_nodes)` — both external library calls): from the
edge index, the node count and the number `k+1` of requested eigenpairs it
produces the eigenvalue list and the row-major eigenvector matrix
(`num_nodes` rows, one column per eigenpair). -/
abbrev EigOracle := List (Nat × Nat) → Nat → Nat → List Cx × List (List Cx)

/-- The positional-encoding matrix built inside
`AddLaplacianEigenvectorPE.__call__` (lines 173-197) from the solver output:
`eig_vecs = np.real(eig_vecs[:, eig_vals.argsort()])`,
`pe = eig_vecs[:, 1:k+1]`, `sign = -1 + 2*randint(0, 2, (k,))`, `pe *= sign`.
`draws` are the `randint(0, 2)` samples. -/
def lapPEmat (eig_fn : EigOracle) (k : Nat) (draws : List Nat)
    (edge_index : List (Nat × Nat)) (num_nodes : Nat) : Mat :=
  let res := eig_fn edge_index num_nodes (k + 1)
  let eig_vals := res.1
  let eig_vecs0 := res.2
  let sorted := eig_vecs0.map (fun row =>
    ((argsortCx eig_vals).map (fun idx => row.getD idx (0, 0))).map Prod.fst)
  let pe := sorted.map (fun row => (row.drop 1).take k)
  let sign := draws.map (fun (b : Nat) => (-1 : ℚ) + 2 * (b : ℚ))
  pe.map (fun row => List.zipWith (fun s v => s * v) sign row)

/-- Translation of `AddLaplacianEigenvectorPE.__call__` (lines 173-200): computes the
spectral positional encoding and attaches it to the data object under
`"laplacian_eigenvector_pe"`. -/
def AddLaplacianEigenvectorPE_call (eig_fn : EigOracle) (k : Nat)
    (draws : List Nat) (d : Data) : Data :=
  add_node_attr d (lapPEmat eig_fn k draws d.edge_index d.num_nodes)
    (some "laplacian_eigenvector_pe")

/-- A rational that is a whole number, as a `Nat` (reading an index stored in
a numeric table). -/
def qToNat (q : ℚ) : Nat := q.num.toNat

/-- Model of `np.where(A)` on a dense matrix: the coordinates of its nonzero entries
in row-major order. -/
def npWhere (A : Mat) : List (Nat × Nat) :=
  (List.range A.length).flatMap (fun i =>
    (List.range ((A.getD i []).length)).filterMap (fun j =>
      if entryM A i j = 0 then none else some (i, j)))

/-- The type of the external node2vec trainer (`node2vec(data, dim, device)`
evaluated on `arange(num_nodes)`, lines 37-89 and 287): from the edge index,
the node count and the embedding dimension it produces the learned embedding
table. -/
abbrev N2vOracle := List (Nat × Nat) → Nat → Nat → Mat

/-- Line 263: `adj = A if A.shape[0]==2 else np.where(A)` — the edge index
read off the (transposed) adjacency table. -/
def edgeIndexOfTable (A : Mat) : List (Nat × Nat) :=
  if A.length = 2 then
    List.zip ((A.getD 0 []).map qToNat) ((A.getD 1 []).map qToNat)
  else npWhere A

/-- Line 265: `data = Data(edge_index=edge_index)` — the node count is
derived by `maybe_num_nodes`. -/
def dataOfTable (A : Mat) : Data :=
  { edge_index := edgeIndexOfTable A, edge_weight := none,
    num_nodes := maybe_num_nodes (edgeIndexOfTable A), x := none, attrs := [] }

/-- The spectral block of `compute_pos_enc` (lines 269-273): for
`le_size > 0` the attribute attached by the spectral encoder, for
`le_size == 0` the literal `np.array([[] for i in range(A.shape[0])])` —
note the row count is `A.shape[0]`, the raw table's first dimension. -/
def peLeBlock (eig_fn : EigOracle) (draws : List Nat) (A : Mat)
    (le_size : Nat) (d : Data) : Mat :=
  if 0 < le_size then
    getAttrD (AddLaplacianEigenvectorPE_call eig_fn le_size draws d)
      "laplacian_eigenvector_pe"
  else List.replicate A.length []

/-- The learned (node2vec) block of `compute_pos_enc` (lines 286-290), with
the graph arguments the oracle receives spelled out. -/
def peN2vBlock (n2v_fn : N2vOracle) (A : Mat) (n2v_size : Nat) : Mat :=
  if 0 < n2v_size then
    n2v_fn (edgeIndexOfTable A) (maybe_num_nodes (edgeIndexOfTable A)) n2v_size
  else List.replicate A.length []

/-- Translation of `compute_pos_enc` (lines 260-301), up to the returned matrix.  The
adjacency table `A` is the transposed parquet content; the data object is
built from it (`adj = A if A.shape[0]==2 else np.where(A)`); the encoders
run in sequence on the shared (mutated) data object; the random-walk block
is computed but omitted from the final concatenation `[pe_le, pe_n2v]`; the
`norm` parameter is shadowed by the local lambda before use.  `none` models
the `np.concatenate` exception on mismatched row counts. -/
def computePosEnc (eig_fn : EigOracle) (draws : List Nat) (n2v_fn : N2vOracle)
    (A : Mat) (le_size rw_size n2v_size : Nat) (norm : Bool) : Option Mat :=
  let data : Data := dataOfTable A
  let data1 :=
    if 0 < le_size then AddLaplacianEigenvectorPE_call eig_fn le_size draws data
    else data
  let pe_le :=
    if 0 < le_size then getAttrD data1 "laplacian_eigenvector_pe"
    else List.replicate A.length []
  let data2 :=
    if 0 < rw_size then AddRandomWalkPE_forward rw_size data1 else data1
  let pe_rw :=
    if 0 < rw_size then getAttrD data2 "random_walk_pe"
    else List.replicate A.length []
  let pe_n2v :=
    if 0 < n2v_size then n2v_fn data2.edge_index data2.num_nodes n2v_size
    else List.replicate A.length []
  let _pe_rw_unused := pe_rw
  let norm := fun (x : Mat) =>
    if 0 < msize x then
      x.map (fun r => r.map (fun v =>
        (v - listMin x.flatten) / (listMax x.flatten - listMin x.flatten)))
    else x
  hconcat2 (norm pe_le) (norm pe_n2v)

/-- Python `s.split(c)` for a single-character separator, on the character
list of the string. -/
def splitChars (c : Char) : List Char → List (List Char)
  | [] => [[]]
  | x :: xs =>
    match splitChars c xs with
    | [] => if x = c then [[], []] else [[x]]
    | h :: t => if x = c then [] :: h :: t else (x :: h) :: t

/-- Python `s.split(c)` on strings. -/
def strSplit (c : Char) (s : String) : List String :=
  (splitChars c s.toList).map (fun l => String.mk l)

/-- Python `sep.join(parts)`. -/
def strJoin (sep : String) (parts : List String) : String :=
  String.intercalate sep parts

/-- The fields of the `args` namespace that the cache layer reads. -/
structure Args where
  adj_path : String
  pe_path : String
  pe_size : Nat
deriving DecidableEq

/-- Translation of `pe_path_from` (source lines 303-307): the persistence path derived from
the adjacency source path and the `pe_size` dimension token. -/
def pe_path_from (args : Args) : String :=
  let parts := strSplit '/' args.adj_path
  let base_path := strJoin "/" parts.dropLast ++ "/"
  let pe_path := base_path ++ "pe_" ++ "dim" ++ toString args.pe_size ++ "_"
  pe_path ++ strJoin "_" ((strSplit '_' (parts.getLastD "")).drop 1)

/-- An on-disk store of tabular artifacts, path-addressed. -/
abbrev FS := List (String × Mat)

/-- Model of `os.path.exists` plus `pd.read_parquet`: the table at a path. -/
def lookupFS (fs : FS) (p : String) : Option Mat :=
  (fs.find? (fun q => q.1 == p)).map Prod.snd

/-- Model of `to_parquet`: write a table at a path (overwrite or create). -/
def writeFS (fs : FS) (p : String) (m : Mat) : FS :=
  if fs.any (fun q => q.1 == p) then
    fs.map (fun q => if q.1 == p then (p, m) else q)
  else fs ++ [(p, m)]

/-- Transpose of a table in the numpy sense (`pd.read_parquet(...).T.to_numpy()`). -/
def transposeM (m : Mat) : Mat :=
  (List.range ((m.getD 0 []).length)).map (fun j => m.map (fun r => r.getD j 0))

/-- Translation of `compute_pos_enc` including its effects: reads the adjacency table at
`args.adj_path` (transposed), computes the encoding matrix, and persists it
at the derived path `pe_path_from args` before returning it
(lines 260-301). -/
def compute_pos_enc (eig_fn : EigOracle) (draws : List Nat)
    (n2v_fn : N2vOracle) (fs : FS) (args : Args)
    (le_size rw_size n2v_size : Nat) (norm : Bool) : Option (Mat × FS) :=
  match lookupFS fs args.adj_path with
  | none => none
  | some t =>
    match computePosEnc eig_fn draws n2v_fn (transposeM t)
        le_size rw_size n2v_size norm with
    | none => none
    | some pe => some (pe, writeFS fs (pe_path_from args) pe)

/-- Translation of `pos_enc` (source lines 309-317).  The final `Bool` records whether the
matrix was recomputed (`true`) or served from the cache (`false`).  Note the
existence check is against `args.pe_path`, while `compute_pos_enc` persists
at the derived path `pe_path_from args`. -/
def pos_enc (eig_fn : EigOracle) (draws : List Nat) (n2v_fn : N2vOracle)
    (fs : FS) (args : Args) (le_size rw_size n2v_size : Nat)
    (norm use_cached : Bool) : Option (Mat × FS × Bool) :=
  match use_cached, lookupFS fs args.pe_path with
  | true, some pe => some (pe, fs, false)
  | _, _ =>
    (compute_pos_enc eig_fn draws n2v_fn fs args le_size rw_size n2v_size
      norm).map (fun p => (p.1, p.2, true))

lemma getD_map_range {α : Type} (f : Nat → α) {n i : Nat} (dflt : α)
    (h : i < n) : ((List.range n).map f).getD i dflt = f i := by
  rw [List.getD_eq_getElem?_getD, List.getElem?_map, List.getElem?_range h]
  rfl

lemma length_mOfFn (n : Nat) (f : Nat → Nat → ℚ) : (mOfFn n f).length = n := by
  simp [mOfFn]

lemma entry_mOfFn (n : Nat) (f : Nat → Nat → ℚ) {i j : Nat} (hi : i < n)
    (hj : j < n) : entryM (mOfFn n f) i j = f i j := by
  unfold entryM mOfFn
  rw [getD_map_range _ _ hi, getD_map_range _ _ hj]

lemma row_mOfFn (n : Nat) (f : Nat → Nat → ℚ) {i : Nat} (hi : i < n) :
    (mOfFn n f).getD i [] = (List.range n).map (f i) := by
  unfold mOfFn
  rw [getD_map_range _ _ hi]

lemma sum_map_add (l : List Nat) (a b : Nat → ℚ) :
    (l.map (fun v => a v + b v)).sum = (l.map a).sum + (l.map b).sum := by
  induction l with
  | nil => simp
  | cons x xs ih => simp [ih]; ring

lemma sum_map_zero (l : List Nat) :
    (l.map (fun _ => (0 : ℚ))).sum = 0 := by
  induction l with
  | nil => simp
  | cons x xs ih => simp [ih]

lemma sum_range_ite (n w : Nat) (c : ℚ) :
    ((List.range n).map (fun v => if v = w then c else 0)).sum =
      if w < n then c else 0 := by
  induction n with
  | zero => simp
  | succ m ih =>
    rw [List.range_succ, List.map_append, List.sum_append, ih]
    by_cases hw : w < m
    · have : ¬ (m = w) := by omega
      simp [this, hw, Nat.lt_succ_of_lt hw]
    · by_cases he : w = m
      · subst he
        simp [hw, Nat.lt_succ_self]
      · have h1 : ¬ (m = w) := fun h => he h.symm
        have h2 : ¬ (w < m + 1) := by omega
        simp [h1, hw, h2]

lemma sum_map_of_const {α : Type} (l : List α) (h : α → ℚ) (c : ℚ)
    (hc : ∀ x ∈ l, h x = c) : (l.map h).sum = l.length * c := by
  induction l with
  | nil => simp
  | cons x xs ih =>
    have hx := hc x (by simp)
    have hxs : ∀ y ∈ xs, h y = c := fun y hy => hc y (by simp [hy])
    simp [hx, ih hxs]
    ring

lemma zip_map_fst_snd {α β : Type} (l : List (α × β)) :
    List.zip (l.map Prod.fst) (l.map Prod.snd) = l := by
  induction l with
  | nil => rfl
  | cons x xs ih => simp [List.zip_cons_cons, ih]

lemma filterMap_congr_mem {α β : Type} (l : List α) (f g : α → Option β)
    (h : ∀ a ∈ l, f a = g a) : l.filterMap f = l.filterMap g := by
  induction l with
  | nil => rfl
  | cons x xs ih =>
    have hx := h x (by simp)
    have hxs : ∀ a ∈ xs, f a = g a := fun a ha => h a (by simp [ha])
    simp [List.filterMap_cons, hx, ih hxs]

lemma filterMap_flatMap {α β γ : Type} (l : List α) (g : α → List β)
    (φ : β → Option γ) :
    (l.flatMap g).filterMap φ = l.flatMap (fun a => (g a).filterMap φ) := by
  induction l with
  | nil => rfl
  | cons x xs ih => simp [List.flatMap_cons, List.filterMap_append, ih]

lemma filterMap_filter {α β : Type} (l : List α) (q : α → Bool)
    (φ : α → Option β) :
    (l.filter q).filterMap φ =
      l.filterMap (fun a => if q a then φ a else none) := by
  induction l with
  | nil => rfl
  | cons x xs ih =>
    by_cases hx : q x <;>
      simp [List.filter_cons, hx, List.filterMap_cons, ih]

lemma filterMap_range_single (n w : Nat) (g : Nat → Option ℚ) :
    (List.range n).filterMap (fun j => if j = w then g j else none) =
      if w < n then (g w).toList else [] := by
  induction n with
  | zero => simp
  | succ m ih =>
    rw [List.range_succ, List.filterMap_append, ih]
    by_cases hw : w < m
    · have h1 : ¬ (m = w) := by omega
      have h2 : w < m + 1 := by omega
      simp [h1, hw, h2]
    · by_cases he : w = m
      · subst he
        have h2 : w < w + 1 := Nat.lt_succ_self w
        cases hg : g w <;>
          simp [hw, h2, List.filterMap_cons, hg]
      · have h1 : ¬ (m = w) := fun h => he h.symm
        have h2 : ¬ (w < m + 1) := by omega
        simp [h1, hw, h2]

lemma flatMap_range_single {α : Type} (n w : Nat) (h : Nat → List α) :
    ((List.range n).flatMap (fun i => if i = w then h i else [])) =
      if w < n then h w else [] := by
  induction n with
  | zero => simp
  | succ m ih =>
    rw [List.range_succ, List.flatMap_append, ih]
    by_cases hw : w < m
    · have h1 : ¬ (m = w) := by omega
      have h2 : w < m + 1 := by omega
      simp [h1, hw, h2]
    · by_cases he : w = m
      · subst he
        simp [hw, Nat.lt_succ_self]
      · have h1 : ¬ (m = w) := fun h => he h.symm
        have h2 : ¬ (w < m + 1) := by omega
        simp [h1, hw, h2]

lemma getLast?_cons_getD {α : Type} (x : α) (l : List α) (d : α) :
    ((x :: l).getLast?).getD d = (l.getLast?).getD x := by
  induction l generalizing x d with
  | nil => rfl
  | cons y ys ih =>
    rw [List.getLast?_cons_cons]
    rw [ih y d, ih y x]

lemma length_foldl_set (ps : List ((Nat × Nat) × ℚ)) (acc : List ℚ) :
    (ps.foldl (fun a p => a.set p.1.1 p.2) acc).length = acc.length := by
  induction ps generalizing acc with
  | nil => rfl
  | cons p ps ih => rw [List.foldl_cons, ih, List.length_set]

lemma foldl_set_getD (ps : List ((Nat × Nat) × ℚ)) (acc : List ℚ) (u : Nat)
    (hu : u < acc.length) :
    (ps.foldl (fun a p => a.set p.1.1 p.2) acc).getD u 0 =
      ((ps.filterMap (fun p => if p.1.1 = u then some p.2 else none)).getLast?).getD
        (acc.getD u 0) := by
  induction ps generalizing acc with
  | nil => rfl
  | cons p ps ih =>
    rw [List.foldl_cons]
    by_cases hp : p.1.1 = u
    · have hcons : List.filterMap
          (fun p => if p.1.1 = u then some p.2 else none) (p :: ps) =
          p.2 :: List.filterMap
            (fun p => if p.1.1 = u then some p.2 else none) ps := by
        simp [List.filterMap_cons, hp]
      rw [hcons, getLast?_cons_getD]
      rw [hp, ih (acc.set u p.2) (by rw [List.length_set]; exact hu)]
      congr 1
      rw [List.getD_eq_getElem?_getD, List.getElem?_set_self' ]
      simp [hu]
    · have hcons : List.filterMap
          (fun p => if p.1.1 = u then some p.2 else none) (p :: ps) =
          List.filterMap
            (fun p => if p.1.1 = u then some p.2 else none) ps := by
        simp [List.filterMap_cons, hp]
      rw [hcons]
      rw [ih (acc.set p.1.1 p.2) (by rw [List.length_set]; exact hu)]
      congr 1
      rw [List.getD_eq_getElem?_getD, List.getElem?_set_ne hp]
      rw [List.getD_eq_getElem?_getD]

lemma flatMap_congr_mem {α β : Type} (l : List α) (f g : α → List β)
    (h : ∀ a ∈ l, f a = g a) : l.flatMap f = l.flatMap g := by
  induction l with
  | nil => rfl
  | cons x xs ih =>
    have hx := h x (by simp)
    have hxs : ∀ a ∈ xs, f a = g a := fun a ha => h a (by simp [ha])
    simp [List.flatMap_cons, hx, ih hxs]

lemma ents_mOfFn (n : Nat) (f : Nat → Nat → ℚ) :
    (List.range ((mOfFn n f).length)).flatMap (fun i =>
      (List.range (((mOfFn n f).getD i []).length)).filterMap (fun j =>
        if entryM (mOfFn n f) i j = 0 then none
        else some ((i, j), entryM (mOfFn n f) i j))) =
    (List.range n).flatMap (fun i => (List.range n).filterMap (fun j =>
      if f i j = 0 then none else some ((i, j), f i j))) := by
  rw [length_mOfFn]
  apply flatMap_congr_mem
  intro i hi
  have hij : i < n := List.mem_range.mp hi
  rw [row_mOfFn n f hij]
  rw [List.length_map, List.length_range]
  apply filterMap_congr_mem
  intro j hj
  have hjn : j < n := List.mem_range.mp hj
  rw [entry_mOfFn n f hij hjn]

lemma get_self_loop_attr_ents (es : List ((Nat × Nat) × ℚ)) (n : Nat) :
    get_self_loop_attr (es.map Prod.fst) (some (es.map Prod.snd)) n =
      (es.filter (fun p => p.1.1 == p.1.2)).foldl
        (fun acc p => acc.set p.1.1 p.2) (List.replicate n 0) := by
  have h1 : get_self_loop_attr (es.map Prod.fst) (some (es.map Prod.snd)) n =
      (((es.map Prod.fst).zip (es.map Prod.snd)).filter
        (fun p => p.1.1 == p.1.2)).foldl
        (fun acc p => acc.set p.1.1 p.2) (List.replicate n 0) := rfl
  rw [h1, zip_map_fst_snd]

lemma get_pe_sparse_diag (n : Nat) (f : Nat → Nat → ℚ) :
    get_pe n (AdjT.sparse (mOfFn n f)) =
      (List.range n).map (fun u => f u u) := by
  have hte : get_pe n (AdjT.sparse (mOfFn n f)) =
      get_self_loop_attr (to_edge_index (mOfFn n f)).1
        (some (to_edge_index (mOfFn n f)).2) n := rfl
  rw [hte]
  have hes : to_edge_index (mOfFn n f) =
      (((List.range n).flatMap (fun i => (List.range n).filterMap (fun j =>
        if f i j = 0 then none else some ((i, j), f i j)))).map Prod.fst,
       ((List.range n).flatMap (fun i => (List.range n).filterMap (fun j =>
        if f i j = 0 then none else some ((i, j), f i j)))).map Prod.snd) := by
    unfold to_edge_index
    rw [ents_mOfFn]
  rw [hes]
  set es := (List.range n).flatMap (fun i => (List.range n).filterMap (fun j =>
    if f i j = 0 then none else some ((i, j), f i j))) with hes_def
  rw [get_self_loop_attr_ents]
  apply List.ext_getElem
  · rw [length_foldl_set, List.length_replicate, List.length_map,
      List.length_range]
  · intro u hu1 hu2
    have hun : u < n := by
      have := hu1
      rw [length_foldl_set, List.length_replicate] at this
      exact this
    rw [← List.getD_eq_getElem _ 0 hu1, ← List.getD_eq_getElem _ 0 hu2]
    rw [getD_map_range _ 0 hun]
    rw [foldl_set_getD _ _ u (by rw [List.length_replicate]; exact hun)]
    have hrep : (List.replicate n (0 : ℚ)).getD u 0 = 0 := by
      rw [List.getD_eq_getElem _ 0 (by rw [List.length_replicate]; exact hun)]
      exact List.getElem_replicate 0 (by rw [List.length_replicate]; exact hun)
    rw [hrep]
    rw [filterMap_filter]
    rw [hes_def, filterMap_flatMap]
    have hinner : ∀ i ∈ List.range n,
        ((List.range n).filterMap (fun j =>
          if f i j = 0 then none else some ((i, j), f i j))).filterMap
          (fun p => if p.1.1 == p.1.2 then
            (if p.1.1 = u then some p.2 else none) else none) =
        (if i = u then
          (if f u u = 0 then [] else [f u u]) else []) := by
      intro i hi
      rw [List.filterMap_filterMap]
      by_cases hiu : i = u
      · subst hiu
        have hfun : ∀ j ∈ List.range n,
            ((if f i j = 0 then none else some ((i, j), f i j)).bind
              (fun p => if p.1.1 == p.1.2 then
                (if p.1.1 = i then some p.2 else none) else none)) =
            (if j = i then
              (if f i j = 0 then none else some (f i j)) else none) := by
          intro j hj
          by_cases hz : f i j = 0
          · simp [hz]
          · by_cases hji : j = i
            · subst hji
              simp [hz]
            · have hb : (i == j) = false := by
                simp only [beq_eq_false_iff_ne, ne_eq]
                omega
              simp [hz, hb, hji]
              omega
        rw [filterMap_congr_mem _ _ _ hfun]
        rw [filterMap_range_single n i
          (fun j => if f i j = 0 then none else some (f i j))]
        by_cases hz : f i i = 0 <;>
          simp [hz, List.mem_range.mp hi]
      · rw [if_neg hiu]
        apply List.filterMap_eq_nil_iff.mpr
        intro j hj
        by_cases hz : f i j = 0
        · simp [hz]
        · by_cases hij : i = j
          · subst hij
            simp [hz, hiu]
          · have hb : (i == j) = false := by
              simp only [beq_eq_false_iff_ne, ne_eq]
              omega
            simp [hz, hb]
            omega
    rw [flatMap_congr_mem _ _ _ hinner]
    rw [flatMap_range_single n u (fun _ => if f u u = 0 then [] else [f u u])]
    rw [if_pos hun]
    by_cases hz : f u u = 0
    · simp [hz]
    · simp [hz]

lemma width_mOfFn (n : Nat) (g : Nat → Nat → ℚ) :
    ((mOfFn n g).getD 0 []).length = n := by
  cases n with
  | zero => rfl
  | succ m =>
    rw [row_mOfFn (m + 1) g (Nat.succ_pos m)]
    rw [List.length_map, List.length_range]

lemma matMul_mOfFn (n : Nat) (f g : Nat → Nat → ℚ) :
    matMul (mOfFn n f) (mOfFn n g) = mOfFn n (mulFun n f g) := by
  have h1 : matMul (mOfFn n f) (mOfFn n g) =
      ((List.range n).map (fun i => (List.range n).map (f i))).map
        (fun ra => (List.range n).map (fun j =>
          ((List.range ra.length).map
            (fun k => ra.getD k 0 * entryM (mOfFn n g) k j)).sum)) := by
    unfold matMul
    rw [width_mOfFn]
    rfl
  rw [h1, List.map_map]
  show _ = (List.range n).map (fun i => (List.range n).map
    (fun j => mulFun n f g i j))
  apply List.map_congr_left
  intro i hi
  simp only [Function.comp_apply, List.length_map, List.length_range]
  apply List.map_congr_left
  intro j hj
  unfold mulFun
  congr 1
  apply List.map_congr_left
  intro k hk
  rw [getD_map_range (f i) 0 (List.mem_range.mp hk)]
  rw [entry_mOfFn n g (List.mem_range.mp hk) (List.mem_range.mp hj)]

lemma matPowNZ_mOfFn (n : Nat) (f : Nat → Nat → ℚ) (t : Nat) :
    matPowNZ (mOfFn n f) t = mOfFn n (powFun n f t) := by
  induction t with
  | zero => rfl
  | succ s ih =>
    show matMul (matPowNZ (mOfFn n f) s) (mOfFn n f) = _
    rw [ih, matMul_mOfFn]
    rfl

lemma length_peLoop (n : Nat) (adj : AdjT) :
    ∀ (out : AdjT) (k : Nat), (peLoop n adj out k).length = k := by
  intro out k
  induction k generalizing out with
  | zero => rfl
  | succ m ih =>
    show (_ :: peLoop n adj _ m).length = m + 1
    rw [List.length_cons, ih]

lemma peLoop_sparse (n : Nat) (f : Nat → Nat → ℚ) :
    ∀ (k t : Nat),
      peLoop n (AdjT.sparse (mOfFn n f))
        (AdjT.sparse (mOfFn n (powFun n f t))) k =
      (List.range k).map (fun m =>
        (List.range n).map (fun u => powFun n f (t + 1 + m) u u)) := by
  intro k
  induction k with
  | zero => intro t; rfl
  | succ s ih =>
    intro t
    show (get_pe n (adjMul (AdjT.sparse (mOfFn n (powFun n f t)))
        (AdjT.sparse (mOfFn n f)))) ::
      peLoop n (AdjT.sparse (mOfFn n f))
        (adjMul (AdjT.sparse (mOfFn n (powFun n f t)))
          (AdjT.sparse (mOfFn n f))) s = _
    have hmul : adjMul (AdjT.sparse (mOfFn n (powFun n f t)))
        (AdjT.sparse (mOfFn n f)) =
        AdjT.sparse (mOfFn n (powFun n f (t + 1))) := by
      show AdjT.sparse (matMul (mOfFn n (powFun n f t)) (mOfFn n f)) = _
      rw [matMul_mOfFn]
      rfl
    rw [hmul, ih (t + 1)]
    rw [get_pe_sparse_diag]
    rw [List.range_succ_eq_map, List.map_cons, List.map_map]
    have htail : (List.range s).map (fun m =>
        (List.range n).map (fun u => powFun n f (t + 1 + 1 + m) u u)) =
        (List.range s).map ((fun m =>
          (List.range n).map (fun u => powFun n f (t + 1 + m) u u)) ∘
            Nat.succ) := by
      apply List.map_congr_left
      intro m hm
      simp only [Function.comp_apply]
      have harith : t + 1 + 1 + m = t + 1 + Nat.succ m := by omega
      rw [harith]
    rw [htail]

lemma forwardPE_length (d : Data) (L : Nat) :
    (forwardPE d L).length = d.num_nodes := by
  unfold forwardPE stackCols
  rw [List.length_map, List.length_range]

lemma forwardPE_rows (d : Data) (L : Nat) (hL : 1 ≤ L) :
    ∀ r ∈ forwardPE d L, r.length = L := by
  intro r hr
  unfold forwardPE stackCols at hr
  rcases List.mem_map.mp hr with ⟨u, hu, hrow⟩
  rw [← hrow, List.length_map, List.length_cons, length_peLoop]
  omega

lemma forwardPE_entry (d : Data) (L u t : Nat)
    (hu : u < d.num_nodes) (ht : t < L) :
    entryM (forwardPE d L) u t = powFun d.num_nodes (transFun d) t u u := by
  have hloop : peLoop d.num_nodes
      (AdjT.sparse (mOfFn d.num_nodes (transFun d)))
      (AdjT.sparse (mOfFn d.num_nodes (transFun d))) (L - 1) =
      (List.range (L - 1)).map (fun m => (List.range d.num_nodes).map
        (fun w => powFun d.num_nodes (transFun d) (0 + 1 + m) w w)) :=
    peLoop_sparse d.num_nodes (transFun d) (L - 1) 0
  have hfe : forwardPE d L =
      stackCols d.num_nodes
        ((List.range d.num_nodes).map (fun w => transFun d w w) ::
         (List.range (L - 1)).map (fun m => (List.range d.num_nodes).map
           (fun w => powFun d.num_nodes (transFun d) (0 + 1 + m) w w))) := by
    show stackCols d.num_nodes
        (get_pe d.num_nodes (AdjT.sparse (mOfFn d.num_nodes (transFun d))) ::
         peLoop d.num_nodes (AdjT.sparse (mOfFn d.num_nodes (transFun d)))
           (AdjT.sparse (mOfFn d.num_nodes (transFun d))) (L - 1)) = _
    rw [get_pe_sparse_diag, hloop]
  rw [hfe]
  unfold entryM stackCols
  rw [getD_map_range _ [] hu]
  cases t with
  | zero =>
    rw [List.map_cons, List.getD_cons_zero]
    rw [getD_map_range _ 0 hu]
    rfl
  | succ s =>
    rw [List.map_cons, List.getD_cons_succ]
    rw [List.map_map]
    have hs : s < L - 1 := by omega
    rw [getD_map_range _ 0 hs]
    rw [Function.comp_apply]
    rw [getD_map_range _ 0 hu]
    have harith : 0 + 1 + s = s + 1 := by omega
    rw [harith]

lemma matPowNZ_transMat (d : Data) (t u : Nat) (hu : u < d.num_nodes) :
    entryM (matPowNZ (transMat d) t) u u =
      powFun d.num_nodes (transFun d) t u u := by
  have h1 : matPowNZ (transMat d) t =
      mOfFn d.num_nodes (powFun d.num_nodes (transFun d) t) := by
    show matPowNZ (mOfFn d.num_nodes (transFun d)) t = _
    exact matPowNZ_mOfFn d.num_nodes (transFun d) t
  rw [h1, entry_mOfFn _ _ hu hu]

lemma transFun_no_out (d : Data) (u : Nat)
    (h : ∀ e ∈ d.edge_index, e.1 ≠ u) (v : Nat) : transFun d u v = 0 := by
  unfold transFun
  have hfil : ((d.edge_index.zip (normVals d)).filter
      (fun p => p.1 == (u, v))) = [] := by
    apply List.filter_eq_nil_iff.mpr
    intro p hp
    obtain ⟨e, w⟩ := p
    have hmem := (List.of_mem_zip hp).1
    have h1 := h e hmem
    simp only [beq_iff_eq]
    intro hc
    exact h1 (by rw [hc])
  rw [hfil]
  rfl

lemma powFun_row_zero (n : Nat) (f : Nat → Nat → ℚ) (u : Nat)
    (h0 : ∀ v, f u v = 0) : ∀ (t j : Nat), powFun n f t u j = 0 := by
  intro t
  induction t with
  | zero => intro j; exact h0 j
  | succ s ih =>
    intro j
    show mulFun n (powFun n f s) f u j = 0
    unfold mulFun
    have hz : ∀ k ∈ List.range n,
        powFun n f s u k * f k j = (fun _ => (0 : ℚ)) k := by
      intro k hk
      simp [ih k]
    rw [List.map_congr_left hz]
    exact sum_map_zero _

lemma zip_map_filter_snd {α : Type} (es : List α) (g : α → ℚ) (q : α → Bool) :
    (((es.zip (es.map g)).filter (fun p => q p.1)).map Prod.snd) =
      (es.filter q).map g := by
  induction es with
  | nil => rfl
  | cons e es ih =>
    rw [List.map_cons, List.zip_cons_cons]
    by_cases hq : q e
    · rw [List.filter_cons_of_pos (by simpa using hq),
        List.filter_cons_of_pos hq, List.map_cons, List.map_cons, ih]
    · rw [List.filter_cons_of_neg (by simpa using hq),
        List.filter_cons_of_neg hq, ih]

lemma outSum_eq_deg (d : Data) (u : Nat) (hw : d.edge_weight = none) :
    outSum d u = (outDeg d u : ℚ) := by
  unfold outSum edge_weight_vals
  rw [hw]
  rw [zip_map_filter_snd d.edge_index (fun _ => (1 : ℚ)) (fun e => e.1 == u)]
  rw [sum_map_of_const _ _ 1 (fun x _ => rfl)]
  unfold outDeg
  rw [mul_one]

lemma transFun_filter (d : Data) (u v : Nat) :
    transFun d u v = ((d.edge_index.filter (fun e => e == (u, v))).map
      (fun e => 1 / max 1 (outSum d e.1))).sum := by
  unfold transFun
  rw [show normVals d = d.edge_index.map (fun e => 1 / max 1 (outSum d e.1))
    from rfl]
  rw [zip_map_filter_snd d.edge_index _ (fun e => e == (u, v))]

lemma sum_range_filter_exchange (es : List (Nat × Nat)) (g : Nat × Nat → ℚ)
    (u N : Nat) :
    ((List.range N).map (fun v =>
      ((es.filter (fun e => e == (u, v))).map g).sum)).sum =
    ((es.filter (fun e => e.1 == u && decide (e.2 < N))).map g).sum := by
  induction es with
  | nil =>
    have h0 : ∀ v ∈ List.range N,
        ((([] : List (Nat × Nat)).filter (fun e => e == (u, v))).map g).sum =
          (fun _ => (0 : ℚ)) v := by
      intro v _
      rfl
    rw [List.map_congr_left h0, sum_map_zero]
    rfl
  | cons e es ih =>
    have hsplit : ∀ v ∈ List.range N,
        (((e :: es).filter (fun x => x == (u, v))).map g).sum =
        (fun v => (if e = (u, v) then g e else 0) +
          ((es.filter (fun x => x == (u, v))).map g).sum) v := by
      intro v _
      show (((e :: es).filter (fun x => x == (u, v))).map g).sum =
        (if e = (u, v) then g e else 0) +
          ((es.filter (fun x => x == (u, v))).map g).sum
      by_cases he : e = (u, v)
      · rw [List.filter_cons_of_pos (by simpa using he), List.map_cons,
          List.sum_cons, if_pos he]
      · rw [List.filter_cons_of_neg (by simpa using he), if_neg he, zero_add]
    rw [List.map_congr_left hsplit, sum_map_add, ih]
    have hhit : ∀ v ∈ List.range N, (if e = (u, v) then g e else 0) =
        (fun v => if v = e.2 then (if e.1 = u then g e else 0) else 0) v := by
      intro v _
      show (if e = (u, v) then g e else 0) =
        (if v = e.2 then (if e.1 = u then g e else 0) else 0)
      by_cases h2 : v = e.2
      · by_cases h1 : e.1 = u
        · have heq : e = (u, v) := by
            obtain ⟨a, b⟩ := e
            simp only at h1 h2 ⊢
            rw [h1, h2]
          rw [if_pos heq, if_pos h2, if_pos h1]
        · have hne : ¬ (e = (u, v)) := by
            intro hc
            exact h1 (by rw [hc])
          rw [if_neg hne, if_pos h2, if_neg h1]
      · have hne : ¬ (e = (u, v)) := by
          intro hc
          exact h2 (by rw [hc])
        rw [if_neg hne, if_neg h2]
    rw [List.map_congr_left hhit, sum_range_ite]
    rw [List.filter_cons]
    by_cases h1 : e.1 = u <;> by_cases h2 : e.2 < N
    all_goals simp [h1, h2]

lemma rowSumTrans_eq_one (d : Data) (u : Nat) (hw : d.edge_weight = none)
    (hdst : ∀ e ∈ d.edge_index, e.2 < d.num_nodes)
    (hu : u < d.num_nodes) (hdeg : 0 < outDeg d u) :
    rowSumTrans d u = 1 := by
  unfold rowSumTrans
  have h1 : ∀ v ∈ List.range d.num_nodes,
      entryM (transMat d) u v = (fun v => ((d.edge_index.filter
        (fun e => e == (u, v))).map
        (fun e => 1 / max 1 (outSum d e.1))).sum) v := by
    intro v hv
    show entryM (transMat d) u v = _
    unfold transMat
    rw [entry_mOfFn _ _ hu (List.mem_range.mp hv)]
    exact transFun_filter d u v
  rw [List.map_congr_left h1]
  rw [sum_range_filter_exchange d.edge_index _ u d.num_nodes]
  have h2 : d.edge_index.filter
      (fun e => e.1 == u && decide (e.2 < d.num_nodes)) =
      d.edge_index.filter (fun e => e.1 == u) := by
    apply List.filter_congr
    intro e he
    have hlt := hdst e he
    simp [hlt]
  rw [h2]
  have h3 : ∀ e ∈ d.edge_index.filter (fun e => e.1 == u),
      (fun e => 1 / max 1 (outSum d e.1)) e =
        1 / max 1 ((outDeg d u : ℚ)) := by
    intro e he
    have hmem := List.mem_filter.mp he
    have heu : e.1 = u := by simpa using hmem.2
    show 1 / max 1 (outSum d e.1) = _
    rw [heu, outSum_eq_deg d u hw]
  rw [sum_map_of_const _ _ _ h3]
  have hlen : (d.edge_index.filter (fun e => e.1 == u)).length =
    outDeg d u := rfl
  rw [hlen]
  have hge : (1 : ℚ) ≤ (outDeg d u : ℚ) := by
    have h4 : (1 : Nat) ≤ outDeg d u := hdeg
    exact_mod_cast h4
  rw [max_eq_right hge]
  have hne : (outDeg d u : ℚ) ≠ 0 := by
    have h5 : 0 < (outDeg d u : ℚ) := by exact_mod_cast hdeg
    exact ne_of_gt h5
  rw [one_div, mul_inv_cancel₀ hne]

lemma foldl_min_map (g : ℚ → ℚ) (hg : ∀ a b, g (min a b) = min (g a) (g b)) :
    ∀ (l : List ℚ) (a : ℚ), (l.map g).foldl min (g a) = g (l.foldl min a) := by
  intro l
  induction l with
  | nil => intro a; rfl
  | cons x xs ih =>
    intro a
    rw [List.map_cons, List.foldl_cons, List.foldl_cons, ← hg, ih]

lemma foldl_max_map (g : ℚ → ℚ) (hg : ∀ a b, g (max a b) = max (g a) (g b)) :
    ∀ (l : List ℚ) (a : ℚ), (l.map g).foldl max (g a) = g (l.foldl max a) := by
  intro l
  induction l with
  | nil => intro a; rfl
  | cons x xs ih =>
    intro a
    rw [List.map_cons, List.foldl_cons, List.foldl_cons, ← hg, ih]

lemma listMin_map (g : ℚ → ℚ) (hg : ∀ a b, g (min a b) = min (g a) (g b)) :
    ∀ (l : List ℚ), l ≠ [] → listMin (l.map g) = g (listMin l) := by
  intro l hl
  cases l with
  | nil => exact absurd rfl hl
  | cons x xs =>
    show (xs.map g).foldl min (g x) = g (xs.foldl min x)
    exact foldl_min_map g hg xs x

lemma listMax_map (g : ℚ → ℚ) (hg : ∀ a b, g (max a b) = max (g a) (g b)) :
    ∀ (l : List ℚ), l ≠ [] → listMax (l.map g) = g (listMax l) := by
  intro l hl
  cases l with
  | nil => exact absurd rfl hl
  | cons x xs =>
    show (xs.map g).foldl max (g x) = g (xs.foldl max x)
    exact foldl_max_map g hg xs x

lemma zipWith_append_nil (m : Mat) :
    List.zipWith (fun r s => r ++ s) m
      (List.replicate m.length ([] : List ℚ)) = m := by
  induction m with
  | nil => rfl
  | cons r rs ih => simp [List.replicate_succ, ih]

lemma find?_upsert {β : Type} (l : List (String × β)) (name : String) (v : β) :
    ((if l.any (fun p => p.1 == name) then
        l.map (fun p => if p.1 == name then (name, v) else p)
      else l ++ [(name, v)]).find? (fun p => p.1 == name)) = some (name, v) := by
  induction l with
  | nil =>
    simp only [List.any_nil, List.nil_append]
    rw [if_neg (by simp)]
    rw [List.find?_cons]
    have hb : (((name, v) : String × β).1 == name) = true := by simp
    rw [hb]
  | cons p ps ih =>
    by_cases hp : p.1 == name
    · rw [if_pos (by simp [List.any_cons, hp])]
      rw [List.map_cons, if_pos hp]
      rw [List.find?_cons]
      have hb : (((name, v) : String × β).1 == name) = true := by simp
      rw [hb]
    · have hb : (p.1 == name) = false := by simpa using hp
      by_cases hany : ps.any (fun p => p.1 == name)
      · rw [if_pos (by simp [List.any_cons, hany])]
        rw [List.map_cons, if_neg hp]
        rw [List.find?_cons, hb]
        rw [if_pos hany] at ih
        exact ih
      · rw [if_neg (by simp [List.any_cons]; exact ⟨by simpa using hp,
          by simpa using hany⟩)]
        rw [List.cons_append]
        rw [List.find?_cons, hb]
        rw [if_neg hany] at ih
        exact ih

lemma getAttrD_add_node_attr (d : Data) (name : String) (v : Mat) :
    getAttrD (add_node_attr d v (some name)) name = v := by
  show getAttrD { d with attrs := setAttr d.attrs name v } name = v
  unfold getAttrD setAttr
  rw [find?_upsert]
  rfl

lemma lookupFS_writeFS (fs : FS) (p : String) (m : Mat) :
    lookupFS (writeFS fs p m) p = some m := by
  unfold lookupFS writeFS
  rw [find?_upsert]
  rfl

lemma cxLe_total_lemma (a b : Cx) : cxLe a b ∨ cxLe b a := by
  unfold cxLe
  rcases lt_trichotomy a.1 b.1 with h | h | h
  · exact Or.inl (Or.inl h)
  · rcases le_total a.2 b.2 with h2 | h2
    · exact Or.inl (Or.inr ⟨h, h2⟩)
    · exact Or.inr (Or.inr ⟨h.symm, h2⟩)
  · exact Or.inr (Or.inl h)

lemma cxLe_trans_lemma (a b c : Cx) (h1 : cxLe a b) (h2 : cxLe b c) :
    cxLe a c := by
  unfold cxLe at h1 h2 ⊢
  rcases h1 with h1 | ⟨h1e, h1i⟩
  · rcases h2 with h2 | ⟨h2e, h2i⟩
    · exact Or.inl (lt_trans h1 h2)
    · exact Or.inl (h2e ▸ h1)
  · rcases h2 with h2 | ⟨h2e, h2i⟩
    · exact Or.inl (h1e ▸ h2)
    · exact Or.inr ⟨h1e.trans h2e, le_trans h1i h2i⟩

instance keyLe_total (vals : List Cx) : IsTotal Nat (keyLe vals) :=
  ⟨fun _ _ => cxLe_total_lemma _ _⟩

instance keyLe_trans (vals : List Cx) : IsTrans Nat (keyLe vals) :=
  ⟨fun _ _ _ => cxLe_trans_lemma _ _ _⟩

lemma argsortCx_perm (vals : List Cx) :
    (argsortCx vals).Perm (List.range vals.length) :=
  List.perm_insertionSort _ _

lemma argsortCx_sorted (vals : List Cx) :
    (argsortCx vals).Sorted (keyLe vals) :=
  List.sorted_insertionSort _ _

lemma argsortCx_length (vals : List Cx) :
    (argsortCx vals).length = vals.length := by
  rw [(argsortCx_perm vals).length_eq, List.length_range]

lemma lapPEmat_length (f : EigOracle) (k : Nat) (draws : List Nat)
    (es : List (Nat × Nat)) (n : Nat) :
    (lapPEmat f k draws es n).length = (f es n (k + 1)).2.length := by
  unfold lapPEmat
  rw [List.length_map, List.length_map, List.length_map]

lemma lapPEmat_rows (f : EigOracle) (k : Nat) (draws : List Nat)
    (es : List (Nat × Nat)) (n : Nat)
    (hvals : (f es n (k + 1)).1.length = k + 1)
    (hdraws : draws.length = k) :
    ∀ r ∈ lapPEmat f k draws es n, r.length = k := by
  intro r hr
  unfold lapPEmat at hr
  simp only [List.mem_map] at hr
  obtain ⟨r2, ⟨r1, ⟨r0, h0, hr1⟩, hr2⟩, hr3⟩ := hr
  subst hr1
  subst hr2
  subst hr3
  simp only [List.length_zipWith, List.length_map, List.length_take,
    List.length_drop, argsortCx_length, hvals, hdraws]
  omega

lemma lapPEmat_entry (f : EigOracle) (k : Nat) (draws : List Nat)
    (es : List (Nat × Nat)) (n : Nat) (u j : Nat)
    (hvals : (f es n (k + 1)).1.length = k + 1)
    (hdraws : draws.length = k)
    (hu : u < (f es n (k + 1)).2.length) (hj : j < k) :
    entryM (lapPEmat f k draws es n) u j =
      ((-1 : ℚ) + 2 * ((draws.getD j 0 : Nat) : ℚ)) *
        (((f es n (k + 1)).2.getD u []).getD
          ((argsortCx (f es n (k + 1)).1).getD (j + 1) 0) (0, 0)).1 := by
  have hσ : (argsortCx (f es n (k + 1)).1).length = k + 1 := by
    rw [argsortCx_length, hvals]
  have hXlen : (lapPEmat f k draws es n).length = (f es n (k + 1)).2.length :=
    lapPEmat_length f k draws es n
  have hrowX : (lapPEmat f k draws es n).getD u [] =
      List.zipWith (fun s v => s * v)
        (draws.map (fun (b : Nat) => (-1 : ℚ) + 2 * (b : ℚ)))
        (((((argsortCx (f es n (k + 1)).1).map
          (fun idx => ((f es n (k + 1)).2.getD u []).getD idx (0, 0))).map
            Prod.fst).drop 1).take k) := by
    unfold lapPEmat
    rw [List.map_map, List.map_map]
    rw [List.getD_eq_getElem _ [] (by
      rw [List.length_map]
      exact hu)]
    rw [List.getElem_map]
    rw [Function.comp_apply, Function.comp_apply]
    rw [← List.getD_eq_getElem _ [] hu]
  unfold entryM
  rw [hrowX]
  have hlenA : ((((argsortCx (f es n (k + 1)).1).map
      (fun idx => ((f es n (k + 1)).2.getD u []).getD idx (0, 0))).map
        Prod.fst).drop 1).length = k := by
    rw [List.length_drop, List.length_map, List.length_map, hσ]
    omega
  have hlenT : (((((argsortCx (f es n (k + 1)).1).map
      (fun idx => ((f es n (k + 1)).2.getD u []).getD idx (0, 0))).map
        Prod.fst).drop 1).take k).length = k := by
    rw [List.length_take, hlenA]
    omega
  have hzw : (List.zipWith (fun s v => s * v)
      (draws.map (fun (b : Nat) => (-1 : ℚ) + 2 * (b : ℚ)))
      (((((argsortCx (f es n (k + 1)).1).map
        (fun idx => ((f es n (k + 1)).2.getD u []).getD idx (0, 0))).map
          Prod.fst).drop 1).take k)).length = k := by
    rw [List.length_zipWith, List.length_map, hdraws, hlenT]
    omega
  rw [List.getD_eq_getElem _ 0 (by rw [hzw]; exact hj)]
  rw [List.getElem_zipWith]
  congr 1
  · rw [List.getElem_map]
    rw [← List.getD_eq_getElem _ 0 (by rw [hdraws]; exact hj)]
  · rw [List.getElem_take]
    rw [List.getElem_drop]
    rw [List.getElem_map]
    rw [List.getElem_map]
    rw [← List.getD_eq_getElem _ 0 (by rw [hσ]; omega)]
    rw [Nat.add_comm 1 j]

lemma computePosEnc_eq (f : EigOracle) (draws : List Nat) (g : N2vOracle)
    (A : Mat) (le_size rw_size n2v_size : Nat) (nrm : Bool) :
    computePosEnc f draws g A le_size rw_size n2v_size nrm =
      hconcat2 (normBlock (peLeBlock f draws A le_size (dataOfTable A)))
        (normBlock (peN2vBlock g A n2v_size)) := by
  by_cases hle : 0 < le_size <;> by_cases hrw : 0 < rw_size <;>
    by_cases hn : 0 < n2v_size <;>
      simp only [computePosEnc, peLeBlock, peN2vBlock, normBlock, hle, hrw,
        hn, if_true, if_false] <;> rfl

lemma normBlock_length (b : Mat) : (normBlock b).length = b.length := by
  unfold normBlock
  split
  · rw [List.length_map]
  · rfl

lemma getD_replicate_nil (n i : Nat) :
    ((List.replicate n ([] : List ℚ)).getD i []) = [] := by
  rw [List.getD_eq_getElem?_getD]
  rcases Nat.lt_or_ge i n with h | h
  · rw [List.getElem?_eq_getElem (by simpa using h)]
    rw [List.getElem_replicate]
    rfl
  · rw [List.getElem?_eq_none (by simpa using h)]
    rfl

lemma normBlock_row_length (b : Mat) (i : Nat) :
    ((normBlock b).getD i []).length = ((b.getD i []).length) := by
  unfold normBlock
  split
  · rcases Nat.lt_or_ge i b.length with hi | hi
    · rw [List.getD_eq_getElem _ [] (by rw [List.length_map]; exact hi)]
      rw [List.getElem_map]
      rw [List.length_map]
      rw [← List.getD_eq_getElem _ [] hi]
    · rw [List.getD_eq_getElem?_getD, List.getD_eq_getElem?_getD]
      rw [List.getElem?_map]
      rw [List.getElem?_eq_none (by simpa using hi)]
      rfl
  · rfl

lemma peLeBlock_pos (f : EigOracle) (draws : List Nat) (A : Mat)
    (le_size : Nat) (d : Data) (hle : 0 < le_size) :
    peLeBlock f draws A le_size d =
      lapPEmat f le_size draws d.edge_index d.num_nodes := by
  unfold peLeBlock
  rw [if_pos hle]
  exact getAttrD_add_node_attr d "laplacian_eigenvector_pe" _

lemma peLeBlock_row_length (f : EigOracle) (draws : List Nat) (A : Mat)
    (le_size : Nat) (d : Data)
    (hvals : (f d.edge_index d.num_nodes (le_size + 1)).1.length = le_size + 1)
    (hdraws : draws.length = le_size) (i : Nat)
    (hi : i < (peLeBlock f draws A le_size d).length) :
    ((peLeBlock f draws A le_size d).getD i []).length = le_size := by
  by_cases hle : 0 < le_size
  · rw [peLeBlock_pos f draws A le_size d hle] at hi ⊢
    have hmem : (lapPEmat f le_size draws d.edge_index d.num_nodes).getD i [] ∈
        lapPEmat f le_size draws d.edge_index d.num_nodes := by
      rw [List.getD_eq_getElem _ [] hi]
      exact List.getElem_mem hi
    exact lapPEmat_rows f le_size draws d.edge_index d.num_nodes hvals
      hdraws _ hmem
  · have hle0 : le_size = 0 := by omega
    subst hle0
    show (((List.replicate A.length ([] : List ℚ)).getD i []).length) = 0
    rw [getD_replicate_nil]
    rfl

/-- C1: the claim states that for every graph with at most 2000 nodes the
Diffusion Encoder substitutes a dense transition-operator representation for
the sparse one.  In the source the assignment
`adj = to_torch_csr_tensor(...)` (line 241) is unconditional — the `else`
present in the upstream implementation is missing — so the dense matrix
built under `if N <= 2_000:` is dead and the sparse CSR representation is
used for every graph, contradicting the code's own comment
`# Dense code path for faster computation`.  Evaluated at a one-node graph
with a self-loop (`N = 1 ≤ 2000`): the operator actually used is the sparse
tensor (here `[[1]]`), and it is not the dense constructor for any contents.
-/
theorem C1_dense_path_dead :
    (⟨[(0, 0)], none, 1, none, []⟩ : Data).num_nodes ≤ 2000 ∧
    AddRandomWalkPE_adj ⟨[(0, 0)], none, 1, none, []⟩ =
      AdjT.sparse (transMat ⟨[(0, 0)], none, 1, none, []⟩) ∧
    transMat ⟨[(0, 0)], none, 1, none, []⟩ = [[1]] ∧
    (∀ (m : Mat) (li : List Nat),
      AddRandomWalkPE_adj ⟨[(0, 0)], none, 1, none, []⟩ ≠ AdjT.dense m li) := by
  refine ⟨by decide, rfl, ?_, ?_⟩
  · norm_num [transMat, mOfFn, transFun, normVals, outSum, edge_weight_vals,
      List.range_succ]
  · intro m li h
    exact AdjT.noConfusion h

/-- C10: the `norm` parameter of `compute_pos_enc` is shadowed by the local
lambda `norm = lambda x: ...` (line 293) before any use, so the matrix
returned by `compute_pos_enc` — and hence by `pos_enc` — is independent of
the `norm` argument: min-max normalization is applied unconditionally. -/
theorem C10_norm_param_no_effect (f : EigOracle) (draws : List Nat)
    (g : N2vOracle) (A : Mat) (le_size rw_size n2v_size : Nat) (fs : FS)
    (args : Args) (use_cached : Bool) :
    computePosEnc f draws g A le_size rw_size n2v_size true =
      computePosEnc f draws g A le_size rw_size n2v_size false ∧
    pos_enc f draws g fs args le_size rw_size n2v_size true use_cached =
      pos_enc f draws g fs args le_size rw_size n2v_size false use_cached :=
  ⟨rfl, rfl⟩

/-- C9 counterexample: running the Diffusion Encoder does not leave the
shared data object unchanged — it attaches its output under the attribute
`"random_walk_pe"`, so the object after the call differs from the object
before it. -/
theorem C9_counterexample_mutation :
    AddRandomWalkPE_forward 1 ⟨[(0, 0)], none, 1, none, []⟩ ≠
      ⟨[(0, 0)], none, 1, none, []⟩ := by decide

/-- C9 amended: each encoder call mutates the shared data object by
attaching its output as a node attribute, so the object is not unchanged;
but only the attribute store changes — `edge_index`, `edge_weight` and
`num_nodes` are untouched — and each encoder reads only those graph fields,
so each encoder's output is independent of which encoders ran before it on
the same object. -/
theorem C9_encoder_outputs_independent (d : Data) (L k : Nat)
    (f : EigOracle) (draws : List Nat) :
    (AddRandomWalkPE_forward L d).edge_index = d.edge_index ∧
    (AddRandomWalkPE_forward L d).edge_weight = d.edge_weight ∧
    (AddRandomWalkPE_forward L d).num_nodes = d.num_nodes ∧
    (AddLaplacianEigenvectorPE_call f k draws d).edge_index = d.edge_index ∧
    (AddLaplacianEigenvectorPE_call f k draws d).edge_weight =
      d.edge_weight ∧
    (AddLaplacianEigenvectorPE_call f k draws d).num_nodes = d.num_nodes ∧
    forwardPE (AddLaplacianEigenvectorPE_call f k draws d) L =
      forwardPE d L ∧
    lapPEmat f k draws (AddRandomWalkPE_forward L d).edge_index
        (AddRandomWalkPE_forward L d).num_nodes =
      lapPEmat f k draws d.edge_index d.num_nodes :=
  ⟨rfl, rfl, rfl, rfl, rfl, rfl, rfl, rfl⟩

/-- C4 counterexample: a non-empty constant block has zero dynamic range;
the normalization divides by zero there (`NaN` in the floating-point
original, `0` under the `ℚ` division-by-zero convention used here), so the
normalized block's maximum is not 1 — the claim fails for `[[1], [1]]`. -/
theorem C4_counterexample_constant_block :
    normBlock [[1], [1]] = [[0], [0]] ∧
    listMax (normBlock [[1], [1]]).flatten = 0 ∧
    ¬ listMax (normBlock [[1], [1]]).flatten = 1 := by
  have h : normBlock [[1], [1]] = [[0], [0]] := by
    norm_num [normBlock, msize, listMin, listMax]
  refine ⟨h, ?_, ?_⟩
  · rw [h]
    norm_num [listMax]
  · rw [h]
    norm_num [listMax]

/-- C4 amended: for any non-empty block whose minimum is strictly below its
maximum, min-max normalization yields a block with minimum exactly 0 and
maximum exactly 1 and unchanged shape; for an empty block (size 0) the
normalizer is the identity, and concatenating a width-0 block is a no-op.
The original claim over-reaches only on non-empty constant blocks (zero
dynamic range), where the division is degenerate. -/
theorem C4_minmax_normalization (b : Mat)
    (hne : 0 < msize b)
    (hlt : listMin b.flatten < listMax b.flatten) :
    listMin (normBlock b).flatten = 0 ∧
    listMax (normBlock b).flatten = 1 ∧
    (normBlock b).length = b.length ∧
    (∀ i, ((normBlock b).getD i []).length = (b.getD i []).length) ∧
    (∀ c : Mat, msize c = 0 → normBlock c = c) ∧
    (∀ m : Mat, hconcat2 m (List.replicate m.length []) = some m) := by
  have hflatlen : b.flatten.length = msize b := by
    rw [List.length_flatten]
    rfl
  have hfne : b.flatten ≠ [] := by
    intro hc
    rw [hc] at hflatlen
    simp only [List.length_nil] at hflatlen
    omega
  have hpos : 0 < listMax b.flatten - listMin b.flatten := by
    rw [sub_pos]
    exact hlt
  have hnb : normBlock b = b.map (fun r => r.map (fun v =>
      (v - listMin b.flatten) / (listMax b.flatten - listMin b.flatten))) := by
    unfold normBlock
    rw [if_pos hne]
  have hflat : (normBlock b).flatten = b.flatten.map (fun v =>
      (v - listMin b.flatten) / (listMax b.flatten - listMin b.flatten)) := by
    rw [hnb, List.map_flatten]
  have hgmin : ∀ a c : ℚ,
      (min a c - listMin b.flatten) / (listMax b.flatten - listMin b.flatten) =
      min ((a - listMin b.flatten) / (listMax b.flatten - listMin b.flatten))
        ((c - listMin b.flatten) / (listMax b.flatten - listMin b.flatten)) := by
    intro a c
    rw [← min_sub_sub_right, ← min_div_div_right (le_of_lt hpos)]
  have hgmax : ∀ a c : ℚ,
      (max a c - listMin b.flatten) / (listMax b.flatten - listMin b.flatten) =
      max ((a - listMin b.flatten) / (listMax b.flatten - listMin b.flatten))
        ((c - listMin b.flatten) / (listMax b.flatten - listMin b.flatten)) := by
    intro a c
    rw [← max_sub_sub_right, ← max_div_div_right (le_of_lt hpos)]
  refine ⟨?_, ?_, normBlock_length b, normBlock_row_length b, ?_, ?_⟩
  · rw [hflat, listMin_map _ hgmin b.flatten hfne, sub_self, zero_div]
  · rw [hflat, listMax_map _ hgmax b.flatten hfne,
      div_self (ne_of_gt hpos)]
  · intro c hc
    unfold normBlock
    rw [if_neg (by omega)]
  · intro m
    unfold hconcat2
    rw [if_pos (by rw [List.length_replicate]), zipWith_append_nil]

/-- C4 witness: the amended statement applied to the concrete block
`[[0], [2]]`. -/
theorem C4_witness :
    0 < msize [[0], [2]] ∧
    listMin ([[0], [2]] : Mat).flatten < listMax ([[0], [2]] : Mat).flatten ∧
    (listMin (normBlock [[0], [2]]).flatten = 0 ∧
     listMax (normBlock [[0], [2]]).flatten = 1 ∧
     (normBlock [[0], [2]]).length = ([[0], [2]] : Mat).length ∧
     (∀ i, ((normBlock [[0], [2]]).getD i []).length =
       (([[0], [2]] : Mat).getD i []).length) ∧
     (∀ c : Mat, msize c = 0 → normBlock c = c) ∧
     (∀ m : Mat, hconcat2 m (List.replicate m.length []) = some m)) :=
  ⟨by decide, by norm_num [listMin, listMax],
   C4_minmax_normalization [[0], [2]] (by decide)
     (by norm_num [listMin, listMax])⟩

/-- C5 counterexample: for the one-node graph with a single self-loop of
weight 2, the out-weight of node 0 is 2 (positive), yet the transition
value used for the edge is `1 / 2`, not `w / outSum = 2 / 2 = 1`, and the
normalized weights out of node 0 sum to `1 / 2`, not 1: lines 234-235
replace the weight vector by `1.0 / clamp(outSum)[row]`, so the original
weight never appears in the numerator, and `clamp(min=1)` applies to every
out-sum below 1, not only to zero. -/
theorem C5_counterexample_weighted_edges :
    0 < outSum ⟨[(0, 0)], some [2], 1, none, []⟩ 0 ∧
    normVals ⟨[(0, 0)], some [2], 1, none, []⟩ = [1 / 2] ∧
    ¬ normVals ⟨[(0, 0)], some [2], 1, none, []⟩ = [2 / 2] ∧
    rowSumTrans ⟨[(0, 0)], some [2], 1, none, []⟩ 0 = 1 / 2 ∧
    ¬ rowSumTrans ⟨[(0, 0)], some [2], 1, none, []⟩ 0 = 1 := by
  have h1 : outSum ⟨[(0, 0)], some [2], 1, none, []⟩ 0 = 2 := by
    norm_num [outSum, edge_weight_vals]
  have h2 : normVals ⟨[(0, 0)], some [2], 1, none, []⟩ = [1 / 2] := by
    norm_num [normVals, outSum, edge_weight_vals]
  have h3 : rowSumTrans ⟨[(0, 0)], some [2], 1, none, []⟩ 0 = 1 / 2 := by
    norm_num [rowSumTrans, transMat, mOfFn, transFun, normVals, outSum,
      edge_weight_vals, entryM, List.range_succ]
  refine ⟨by rw [h1]; norm_num, h2, ?_, h3, by rw [h3]; norm_num⟩
  rw [h2]
  intro hc
  have hc2 := List.head_eq_of_cons_eq hc
  norm_num at hc2

/-- C5 amended: each edge `(u,v)` carries the transition value
`1 / max 1 (outSum u)` — the edge's own weight enters only through the
out-sum.  Under the default unit weights (`edge_weight is None`) the
out-sum at `u` equals the out-degree, and for every node with at least one
outgoing edge (and all its targets in range) the transition-operator row at
`u` sums to exactly 1. -/
theorem C5_transition_normalization (d : Data) (u : Nat)
    (hw : d.edge_weight = none)
    (hdst : ∀ e ∈ d.edge_index, e.2 < d.num_nodes)
    (hu : u < d.num_nodes) (hdeg : 0 < outDeg d u) :
    normVals d = d.edge_index.map (fun e => 1 / max 1 (outSum d e.1)) ∧
    outSum d u = (outDeg d u : ℚ) ∧
    rowSumTrans d u = 1 :=
  ⟨rfl, outSum_eq_deg d u hw, rowSumTrans_eq_one d u hw hdst hu hdeg⟩

/-- C5 witness: the amended statement applied to the two-node graph with
edges `(0,0), (0,1), (1,0)` and default weights, at node 0. -/
theorem C5_witness :
    (⟨[(0, 0), (0, 1), (1, 0)], none, 2, none, []⟩ : Data).edge_weight =
      none ∧
    (∀ e ∈ (⟨[(0, 0), (0, 1), (1, 0)], none, 2, none, []⟩ : Data).edge_index,
      e.2 < 2) ∧
    0 < 2 ∧
    0 < outDeg ⟨[(0, 0), (0, 1), (1, 0)], none, 2, none, []⟩ 0 ∧
    (normVals ⟨[(0, 0), (0, 1), (1, 0)], none, 2, none, []⟩ =
      (⟨[(0, 0), (0, 1), (1, 0)], none, 2, none, []⟩ : Data).edge_index.map
        (fun e => 1 / max 1
          (outSum ⟨[(0, 0), (0, 1), (1, 0)], none, 2, none, []⟩ e.1)) ∧
     outSum ⟨[(0, 0), (0, 1), (1, 0)], none, 2, none, []⟩ 0 =
       (outDeg ⟨[(0, 0), (0, 1), (1, 0)], none, 2, none, []⟩ 0 : ℚ) ∧
     rowSumTrans ⟨[(0, 0), (0, 1), (1, 0)], none, 2, none, []⟩ 0 = 1) :=
  ⟨rfl, by decide, by decide, by decide,
   C5_transition_normalization ⟨[(0, 0), (0, 1), (1, 0)], none, 2, none, []⟩
     0 rfl (by decide) (by decide) (by decide)⟩

/-- C6: for every graph and walk length `L ≥ 1`, `AddRandomWalkPE.forward`
deterministically produces a `num_nodes × L` matrix whose entry `(u, t)`
(0-indexed column `t`, i.e. step `t+1`) is the `(u,u)` diagonal entry of
the `(t+1)`-st power of the transition operator; column 0 is each node's
total normalized self-loop weight; and the row of a node incident to no
edge is 0 in every column. -/
theorem C6_random_walk_return_probabilities (d : Data) (L u t : Nat)
    (hL : 1 ≤ L) (hu : u < d.num_nodes) (ht : t < L) :
    (forwardPE d L).length = d.num_nodes ∧
    (∀ r ∈ forwardPE d L, r.length = L) ∧
    entryM (forwardPE d L) u t = entryM (matPowNZ (transMat d) t) u u ∧
    entryM (forwardPE d L) u 0 = normSelfLoopSum d u ∧
    ((∀ e ∈ d.edge_index, e.1 ≠ u ∧ e.2 ≠ u) →
      entryM (forwardPE d L) u t = 0) := by
  refine ⟨forwardPE_length d L, forwardPE_rows d L hL, ?_, ?_, ?_⟩
  · rw [forwardPE_entry d L u t hu ht, matPowNZ_transMat d t u hu]
  · rw [forwardPE_entry d L u 0 hu (by omega)]
    rfl
  · intro hiso
    rw [forwardPE_entry d L u t hu ht]
    exact powFun_row_zero d.num_nodes (transFun d) u
      (fun v => transFun_no_out d u (fun e he => (hiso e he).1) v) t u

/-- C6 witness: the statement applied to the two-node graph with a single
self-loop at node 0 (node 1 disconnected), walk length 2, node 1,
column 1. -/
theorem C6_witness :
    (1 : Nat) ≤ 2 ∧
    ((forwardPE ⟨[(0, 0)], none, 2, none, []⟩ 2).length = 2 ∧
     (∀ r ∈ forwardPE ⟨[(0, 0)], none, 2, none, []⟩ 2, r.length = 2) ∧
     entryM (forwardPE ⟨[(0, 0)], none, 2, none, []⟩ 2) 1 1 =
       entryM (matPowNZ (transMat ⟨[(0, 0)], none, 2, none, []⟩) 1) 1 1 ∧
     entryM (forwardPE ⟨[(0, 0)], none, 2, none, []⟩ 2) 1 0 =
       normSelfLoopSum ⟨[(0, 0)], none, 2, none, []⟩ 1 ∧
     ((∀ e ∈ (⟨[(0, 0)], none, 2, none, []⟩ : Data).edge_index,
        e.1 ≠ 1 ∧ e.2 ≠ 1) →
       entryM (forwardPE ⟨[(0, 0)], none, 2, none, []⟩ 2) 1 1 = 0)) :=
  ⟨by decide,
   C6_random_walk_return_probabilities ⟨[(0, 0)], none, 2, none, []⟩ 2 1 1
     (by decide) (by decide) (by decide)⟩

/-- C7: for `1 ≤ k < num_nodes - 1`, the Spectral Encoder requests `k+1`
eigenpairs from the solver (the output depends on the oracle only through
its value at `k+1`), sorts the indices by eigenvalue ascending
(`argsortCx` is a sorted permutation of `0..k`), discards the first sorted
eigenvector, takes real parts, multiplies column `j` by the sign
`-1 + 2·draw_j ∈ {+1, -1}`, and returns a `num_nodes × k` real matrix:
entry `(u, j)` is the sign times the real part of eigenvector component
`σ(j+1)` of node `u`. -/
theorem C7_spectral_postprocessing (f : EigOracle) (k : Nat)
    (draws : List Nat) (d : Data) (u j : Nat)
    (hk : 1 ≤ k) (hkN : k + 1 < d.num_nodes)
    (hvals : (f d.edge_index d.num_nodes (k + 1)).1.length = k + 1)
    (hvecs : (f d.edge_index d.num_nodes (k + 1)).2.length = d.num_nodes)
    (hrows : ∀ r ∈ (f d.edge_index d.num_nodes (k + 1)).2, r.length = k + 1)
    (hdraws : draws.length = k) (hb : ∀ b ∈ draws, b < 2)
    (hu : u < d.num_nodes) (hj : j < k) :
    (lapPEmat f k draws d.edge_index d.num_nodes).length = d.num_nodes ∧
    (∀ r ∈ lapPEmat f k draws d.edge_index d.num_nodes, r.length = k) ∧
    (argsortCx (f d.edge_index d.num_nodes (k + 1)).1).Perm
      (List.range (k + 1)) ∧
    (argsortCx (f d.edge_index d.num_nodes (k + 1)).1).Sorted
      (keyLe (f d.edge_index d.num_nodes (k + 1)).1) ∧
    entryM (lapPEmat f k draws d.edge_index d.num_nodes) u j =
      ((-1 : ℚ) + 2 * ((draws.getD j 0 : Nat) : ℚ)) *
        (((f d.edge_index d.num_nodes (k + 1)).2.getD u []).getD
          ((argsortCx (f d.edge_index d.num_nodes (k + 1)).1).getD (j + 1) 0)
          (0, 0)).1 ∧
    ((-1 : ℚ) + 2 * ((draws.getD j 0 : Nat) : ℚ) = 1 ∨
     (-1 : ℚ) + 2 * ((draws.getD j 0 : Nat) : ℚ) = -1) ∧
    (∀ g : EigOracle,
      f d.edge_index d.num_nodes (k + 1) =
        g d.edge_index d.num_nodes (k + 1) →
      lapPEmat f k draws d.edge_index d.num_nodes =
        lapPEmat g k draws d.edge_index d.num_nodes) := by
  refine ⟨?_, lapPEmat_rows f k draws d.edge_index d.num_nodes hvals hdraws,
    ?_, argsortCx_sorted _, ?_, ?_, ?_⟩
  · rw [lapPEmat_length, hvecs]
  · have hp := argsortCx_perm (f d.edge_index d.num_nodes (k + 1)).1
    rwa [hvals] at hp
  · exact lapPEmat_entry f k draws d.edge_index d.num_nodes u j hvals hdraws
      (by rw [hvecs]; exact hu) hj
  · have hmem : draws.getD j 0 ∈ draws := by
      rw [List.getD_eq_getElem _ 0 (by rw [hdraws]; exact hj)]
      exact List.getElem_mem _
    have hlt2 : draws.getD j 0 < 2 := hb _ hmem
    have h01 : draws.getD j 0 = 0 ∨ draws.getD j 0 = 1 := by omega
    rcases h01 with h | h <;> rw [h] <;> norm_num
  · intro g hfg
    unfold lapPEmat
    rw [hfg]

/-- C7 witness: the statement applied to a concrete 3-node graph, `k = 1`,
a constant solver oracle returning 2 eigenpairs over 3 nodes, and the sign
draw `[1]`. -/
theorem C7_witness :
    (1 : Nat) ≤ 1 ∧ 1 + 1 < 3 ∧
    (((fun (_ : List (Nat × Nat)) (_ : Nat) (_ : Nat) =>
        (([(0, 0), (1, 0)] : List Cx),
         ([[(1, 0), (2, 0)], [(3, 0), (4, 0)], [(5, 0), (6, 0)]] :
           List (List Cx)))) : EigOracle) [(0, 1)] 3 (1 + 1)).1.length =
      1 + 1 ∧
    ((lapPEmat (fun _ _ _ => ([(0, 0), (1, 0)],
        [[(1, 0), (2, 0)], [(3, 0), (4, 0)], [(5, 0), (6, 0)]])) 1 [1]
        [(0, 1)] 3).length = 3 ∧
     (∀ r ∈ lapPEmat (fun _ _ _ => ([(0, 0), (1, 0)],
        [[(1, 0), (2, 0)], [(3, 0), (4, 0)], [(5, 0), (6, 0)]])) 1 [1]
        [(0, 1)] 3, r.length = 1)) := by
  have hmain := C7_spectral_postprocessing
    (fun _ _ _ => ([(0, 0), (1, 0)],
      [[(1, 0), (2, 0)], [(3, 0), (4, 0)], [(5, 0), (6, 0)]]))
    1 [1] ⟨[(0, 1)], none, 3, none, []⟩ 0 0
    (by decide) (by decide) (by decide) (by decide) (by decide) (by decide)
    (by decide) (by decide) (by decide)
  exact ⟨by decide, by decide, by decide, hmain.1, hmain.2.1⟩

lemma peN2vBlock_row_length (g : N2vOracle) (A : Mat) (n2v_size : Nat)
    (hn2v : ∀ r ∈ g (edgeIndexOfTable A)
      (maybe_num_nodes (edgeIndexOfTable A)) n2v_size, r.length = n2v_size)
    (i : Nat) (hi : i < (peN2vBlock g A n2v_size).length) :
    ((peN2vBlock g A n2v_size).getD i []).length = n2v_size := by
  by_cases hn : 0 < n2v_size
  · unfold peN2vBlock at hi ⊢
    rw [if_pos hn] at hi ⊢
    have hmem : (g (edgeIndexOfTable A) (maybe_num_nodes (edgeIndexOfTable A))
        n2v_size).getD i [] ∈ g (edgeIndexOfTable A)
        (maybe_num_nodes (edgeIndexOfTable A)) n2v_size := by
      rw [List.getD_eq_getElem _ [] hi]
      exact List.getElem_mem hi
    exact hn2v _ hmem
  · have h0 : n2v_size = 0 := by omega
    subst h0
    unfold peN2vBlock
    rw [if_neg hn, getD_replicate_nil]
    rfl

/-- C3: whenever the pipeline's assembly step returns a matrix, that matrix
is the row-wise concatenation of the normalized spectral block and the
normalized learned block — `le_size + n2v_size` columns in every row — and
the result is independent of `rw_size`: the diffusion block, even when
computed, is not part of the concatenation. -/
theorem C3_assembled_columns (f : EigOracle) (draws : List Nat)
    (g : N2vOracle) (A : Mat) (le_size rw_size rw_size2 n2v_size : Nat)
    (nrm : Bool) (pe : Mat)
    (hvals : (f (edgeIndexOfTable A) (maybe_num_nodes (edgeIndexOfTable A))
      (le_size + 1)).1.length = le_size + 1)
    (hdraws : draws.length = le_size)
    (hn2v : ∀ r ∈ g (edgeIndexOfTable A)
      (maybe_num_nodes (edgeIndexOfTable A)) n2v_size,
      r.length = n2v_size)
    (hsome : computePosEnc f draws g A le_size rw_size n2v_size nrm =
      some pe) :
    pe = List.zipWith (fun r s => r ++ s)
        (normBlock (peLeBlock f draws A le_size (dataOfTable A)))
        (normBlock (peN2vBlock g A n2v_size)) ∧
    (∀ i, i < pe.length → (pe.getD i []).length = le_size + n2v_size) ∧
    computePosEnc f draws g A le_size rw_size n2v_size nrm =
      computePosEnc f draws g A le_size rw_size2 n2v_size nrm := by
  rw [computePosEnc_eq] at hsome
  unfold hconcat2 at hsome
  by_cases hlen :
      (normBlock (peLeBlock f draws A le_size (dataOfTable A))).length =
      (normBlock (peN2vBlock g A n2v_size)).length
  case neg =>
    rw [if_neg hlen] at hsome
    exact Option.noConfusion hsome
  rw [if_pos hlen] at hsome
  have hpe : pe = List.zipWith (fun r s => r ++ s)
      (normBlock (peLeBlock f draws A le_size (dataOfTable A)))
      (normBlock (peN2vBlock g A n2v_size)) := (Option.some.inj hsome).symm
  refine ⟨hpe, ?_, by rw [computePosEnc_eq, computePosEnc_eq]⟩
  intro i hi
  rw [hpe] at hi ⊢
  have hiz := hi
  rw [List.length_zipWith] at hiz
  have hi1 : i <
      (normBlock (peLeBlock f draws A le_size (dataOfTable A))).length := by
    omega
  have hi2 : i < (normBlock (peN2vBlock g A n2v_size)).length := by
    omega
  rw [List.getD_eq_getElem _ [] hi]
  rw [List.getElem_zipWith]
  rw [List.length_append]
  rw [← List.getD_eq_getElem
    (normBlock (peLeBlock f draws A le_size (dataOfTable A))) [] hi1]
  rw [← List.getD_eq_getElem (normBlock (peN2vBlock g A n2v_size)) [] hi2]
  rw [normBlock_row_length, normBlock_row_length]
  rw [peLeBlock_row_length f draws A le_size (dataOfTable A) hvals hdraws i
    (by rwa [normBlock_length] at hi1)]
  rw [peN2vBlock_row_length g A n2v_size hn2v i
    (by rwa [normBlock_length] at hi2)]

/-- C3 witness: a full concrete run (`A = [[1]]`, `le_size = 1`,
`rw_size = 1`, `n2v_size = 1`) evaluating to `some [[0, 0]]` — two columns,
diffusion block absent, result unchanged when `rw_size` is set to 0. -/
theorem C3_witness :
    ((fun (_ : List (Nat × Nat)) (_ : Nat) (_ : Nat) =>
        (([(0, 0), (1, 0)] : List Cx), ([[(1, 0), (2, 0)]] : List (List Cx))))
      (edgeIndexOfTable [[1]]) (maybe_num_nodes (edgeIndexOfTable [[1]]))
      (1 + 1)).1.length = 1 + 1 ∧
    ([1] : List Nat).length = 1 ∧
    (∀ r ∈ (fun (_ : List (Nat × Nat)) (_ : Nat) (_ : Nat) =>
        ([[(5 : ℚ)]] : Mat)) (edgeIndexOfTable [[1]])
        (maybe_num_nodes (edgeIndexOfTable [[1]])) 1, r.length = 1) ∧
    computePosEnc (fun _ _ _ => ([(0, 0), (1, 0)], [[(1, 0), (2, 0)]]))
      [1] (fun _ _ _ => [[5]]) [[1]] 1 1 1 false = some [[0, 0]] ∧
    (([[0, 0]] : Mat) = List.zipWith (fun r s => r ++ s)
        (normBlock (peLeBlock
          (fun _ _ _ => ([(0, 0), (1, 0)], [[(1, 0), (2, 0)]])) [1] [[1]] 1
          (dataOfTable [[1]])))
        (normBlock (peN2vBlock (fun _ _ _ => [[5]]) [[1]] 1)) ∧
     (∀ i, i < ([[0, 0]] : Mat).length →
        ((([[0, 0]] : Mat)).getD i []).length = 1 + 1) ∧
     computePosEnc (fun _ _ _ => ([(0, 0), (1, 0)], [[(1, 0), (2, 0)]]))
        [1] (fun _ _ _ => [[5]]) [[1]] 1 1 1 false =
      computePosEnc (fun _ _ _ => ([(0, 0), (1, 0)], [[(1, 0), (2, 0)]]))
        [1] (fun _ _ _ => [[5]]) [[1]] 1 0 1 false) := by
  have hsome : computePosEnc
      (fun _ _ _ => ([(0, 0), (1, 0)], [[(1, 0), (2, 0)]]))
      [1] (fun _ _ _ => [[5]]) [[1]] 1 1 1 false = some [[0, 0]] := by
    rw [computePosEnc_eq]
    norm_num [peLeBlock, peN2vBlock, AddLaplacianEigenvectorPE_call,
      getAttrD_add_node_attr, lapPEmat, argsortCx, dataOfTable,
      edgeIndexOfTable, npWhere, entryM, maybe_num_nodes, List.range_succ,
      List.insertionSort, List.orderedInsert, keyLe, cxLe, normBlock, msize,
      listMin, listMax, hconcat2]
  exact ⟨by decide, by decide, by decide, hsome,
    C3_assembled_columns
      (fun _ _ _ => ([(0, 0), (1, 0)], [[(1, 0), (2, 0)]])) [1]
      (fun _ _ _ => [[5]]) [[1]] 1 1 0 1 false [[0, 0]]
      (by decide) (by decide) (by decide) hsome⟩

/-- C8 counterexample: for an adjacency table in `2 × E` edge-index form,
`np.array([[] for i in range(A.shape[0])])` has `A.shape[0] = 2` rows, not
`num_nodes` rows: with `A = [[0, 1], [1, 2]]` (edges `(0,1)`, `(1,2)`,
hence `num_nodes = 3`) the `le_size = 0` spectral block is the `2 × 0`
matrix `[[], []]`, not a `3 × 0` matrix. -/
theorem C8_counterexample_edge_index_input :
    peLeBlock (fun _ _ _ => ([], [])) [] [[0, 1], [1, 2]] 0
      (dataOfTable [[0, 1], [1, 2]]) = [[], []] ∧
    maybe_num_nodes (edgeIndexOfTable [[0, 1], [1, 2]]) = 3 ∧
    ¬ (peLeBlock (fun _ _ _ => ([], [])) [] [[0, 1], [1, 2]] 0
      (dataOfTable [[0, 1], [1, 2]])).length = 3 := by
  refine ⟨by decide, by decide, ?_⟩
  intro hc
  rw [show peLeBlock (fun _ _ _ => ([], [])) [] [[0, 1], [1, 2]] 0
      (dataOfTable [[0, 1], [1, 2]]) = [[], []] from by decide] at hc
  simp at hc

/-- C8 amended: with `le_size = 0` the pipeline's output is independent of
the eigen-oracle and of the sign draws (the solver is never consulted), and
the spectral block is the explicit empty matrix with `A.shape[0]` rows —
which equals `num_nodes × 0` exactly when the table is in dense form and
its derived node count equals its row count. -/
theorem C8_empty_spectral_block (f f2 : EigOracle) (draws draws2 : List Nat)
    (g : N2vOracle) (A : Mat) (rw_size n2v_size : Nat) (nrm nrm2 : Bool)
    (h2 : ¬ A.length = 2)
    (hN : maybe_num_nodes (edgeIndexOfTable A) = A.length) :
    computePosEnc f draws g A 0 rw_size n2v_size nrm =
      computePosEnc f2 draws2 g A 0 rw_size n2v_size nrm2 ∧
    peLeBlock f draws A 0 (dataOfTable A) =
      List.replicate (maybe_num_nodes (edgeIndexOfTable A)) [] ∧
    (peLeBlock f draws A 0 (dataOfTable A)).length =
      maybe_num_nodes (edgeIndexOfTable A) ∧
    (∀ r ∈ peLeBlock f draws A 0 (dataOfTable A), r.length = 0) := by
  have hble : peLeBlock f draws A 0 (dataOfTable A) =
      List.replicate A.length [] := by
    unfold peLeBlock
    rw [if_neg (by omega)]
  have hble2 : peLeBlock f2 draws2 A 0 (dataOfTable A) =
      List.replicate A.length [] := by
    unfold peLeBlock
    rw [if_neg (by omega)]
  refine ⟨?_, ?_, ?_, ?_⟩
  · rw [computePosEnc_eq, computePosEnc_eq, hble, hble2]
  · rw [hble, hN]
  · rw [hble, List.length_replicate, hN]
  · intro r hr
    rw [hble] at hr
    rw [List.eq_of_mem_replicate hr]
    rfl

/-- C8 witness: the amended statement at the dense-form table `[[1]]`
(one node with a self-loop, derived node count 1 = row count). -/
theorem C8_witness :
    ¬ ([[1]] : Mat).length = 2 ∧
    maybe_num_nodes (edgeIndexOfTable [[1]]) = ([[1]] : Mat).length ∧
    (computePosEnc (fun _ _ _ => ([], [])) [] (fun _ _ _ => [[]]) [[1]]
        0 1 0 false =
      computePosEnc (fun _ _ _ => ([(0, 0)], [[(1, 0)]])) [0]
        (fun _ _ _ => [[]]) [[1]] 0 1 0 true ∧
     peLeBlock (fun _ _ _ => ([], [])) [] [[1]] 0 (dataOfTable [[1]]) =
       List.replicate (maybe_num_nodes (edgeIndexOfTable [[1]])) [] ∧
     (peLeBlock (fun _ _ _ => ([], [])) [] [[1]] 0
       (dataOfTable [[1]])).length =
       maybe_num_nodes (edgeIndexOfTable [[1]]) ∧
     (∀ r ∈ peLeBlock (fun _ _ _ => ([], [])) [] [[1]] 0 (dataOfTable [[1]]),
       r.length = 0)) :=
  ⟨by decide, by decide,
   C8_empty_spectral_block (fun _ _ _ => ([], []))
     (fun _ _ _ => ([(0, 0)], [[(1, 0)]])) [] [0] (fun _ _ _ => [[]])
     [[1]] 1 0 false true (by decide) (by decide)⟩

lemma compute_pos_enc_persists (f : EigOracle) (draws : List Nat)
    (g : N2vOracle) (fs : FS) (args : Args)
    (le_size rw_size n2v_size : Nat) (nrm : Bool) (pe : Mat) (fs2 : FS)
    (h : compute_pos_enc f draws g fs args le_size rw_size n2v_size nrm =
      some (pe, fs2)) :
    fs2 = writeFS fs (pe_path_from args) pe ∧
    lookupFS fs2 (pe_path_from args) = some pe := by
  unfold compute_pos_enc at h
  cases ht : lookupFS fs args.adj_path with
  | none =>
    rw [ht] at h
    exact Option.noConfusion h
  | some t =>
    rw [ht] at h
    have h3 : (match computePosEnc f draws g (transposeM t) le_size rw_size
        n2v_size nrm with
      | none => none
      | some pe0 => some (pe0, writeFS fs (pe_path_from args) pe0)) =
      some (pe, fs2) := h
    cases hcp : computePosEnc f draws g (transposeM t) le_size rw_size
        n2v_size nrm with
    | none =>
      rw [hcp] at h3
      exact Option.noConfusion h3
    | some pe0 =>
      rw [hcp] at h3
      have h2 := Option.some.inj h3
      have hpe : pe0 = pe := congrArg Prod.fst h2
      have hfs : writeFS fs (pe_path_from args) pe0 = fs2 :=
        congrArg Prod.snd h2
      subst hpe
      exact ⟨hfs.symm, hfs ▸ lookupFS_writeFS fs (pe_path_from args) pe0⟩

/-- C2 counterexample: `pos_enc` checks `args.pe_path`, not the path
derived from the adjacency source.  Here the derived path
`pe_path_from args = "d/pe_dim0_x"` exists in the store (holding `[[9]]`),
`use_cached = true`, yet because `args.pe_path = "other"` does not exist
the function recomputes (flag `true`), returns the freshly computed matrix
`[[]]` instead of the cached `[[9]]`, and overwrites the cache entry. -/
theorem C2_counterexample_read_path :
    pe_path_from ⟨"d/adj_x", "other", 0⟩ = "d/pe_dim0_x" ∧
    lookupFS [("d/pe_dim0_x", [[9]]), ("d/adj_x", [[1]])]
      (pe_path_from ⟨"d/adj_x", "other", 0⟩) = some [[9]] ∧
    pos_enc (fun _ _ _ => ([], [])) [] (fun _ _ _ => [[]])
      [("d/pe_dim0_x", [[9]]), ("d/adj_x", [[1]])]
      ⟨"d/adj_x", "other", 0⟩ 0 0 0 false true =
      some ([[]], [("d/pe_dim0_x", [[]]), ("d/adj_x", [[1]])], true) := by
  refine ⟨by decide, by decide, by decide⟩

/-- C2 amended: `pos_enc` serves from `args.pe_path` — a caller-supplied
path, not one derived from the adjacency source — and persists to the
derived path `pe_path_from args`.  When `use_cached` is true and
`args.pe_path` exists, the stored matrix is returned with no recomputation;
and when the caller sets `args.pe_path = pe_path_from args`, a second
cached call after a computing call returns the identical matrix with no
recomputation. -/
theorem C2_cache_read_write (f : EigOracle) (draws : List Nat)
    (g : N2vOracle) (fs fs2 : FS) (args : Args)
    (le_size rw_size n2v_size : Nat) (nrm : Bool) (M pe : Mat)
    (hpath : args.pe_path = pe_path_from args) :
    (lookupFS fs args.pe_path = some M →
      pos_enc f draws g fs args le_size rw_size n2v_size nrm true =
        some (M, fs, false)) ∧
    (pos_enc f draws g fs args le_size rw_size n2v_size nrm true =
        some (pe, fs2, true) →
      pos_enc f draws g fs2 args le_size rw_size n2v_size nrm true =
        some (pe, fs2, false)) := by
  constructor
  · intro hlook
    unfold pos_enc
    rw [hlook]
  · intro hrun
    cases hlook : lookupFS fs args.pe_path with
    | some M0 =>
      unfold pos_enc at hrun
      rw [hlook] at hrun
      have h2 := Option.some.inj hrun
      have h3 : false = true := congrArg (fun p => p.2.2) h2
      exact Bool.noConfusion h3
    | none =>
      unfold pos_enc at hrun
      rw [hlook] at hrun
      cases hc : compute_pos_enc f draws g fs args le_size rw_size
          n2v_size nrm with
      | none =>
        rw [hc] at hrun
        exact Option.noConfusion hrun
      | some p =>
        rw [hc] at hrun
        simp only [Option.map_some] at hrun
        have h2 := Option.some.inj hrun
        have hp1 : p.1 = pe := congrArg (fun q => q.1) h2
        have hp2 : p.2 = fs2 := congrArg (fun q => q.2.1) h2
        have hc2 : compute_pos_enc f draws g fs args le_size rw_size
            n2v_size nrm = some (pe, fs2) := by
          rw [hc, ← hp1, ← hp2]
        have hpers := compute_pos_enc_persists f draws g fs args le_size
          rw_size n2v_size nrm pe fs2 hc2
        unfold pos_enc
        rw [hpath, hpers.2]

/-- C2 witness: the amended statement with `args.pe_path` set to the
derived path `"d/pe_dim0_x"`. -/
theorem C2_witness :
    (⟨"d/adj_x", "d/pe_dim0_x", 0⟩ : Args).pe_path =
      pe_path_from ⟨"d/adj_x", "d/pe_dim0_x", 0⟩ ∧
    ((lookupFS [("d/adj_x", [[1]])]
        (⟨"d/adj_x", "d/pe_dim0_x", 0⟩ : Args).pe_path = some [[9]] →
      pos_enc (fun _ _ _ => ([], [])) [] (fun _ _ _ => [[]])
        [("d/adj_x", [[1]])] ⟨"d/adj_x", "d/pe_dim0_x", 0⟩ 0 0 0 false true =
        some ([[9]], [("d/adj_x", [[1]])], false)) ∧
     (pos_enc (fun _ _ _ => ([], [])) [] (fun _ _ _ => [[]])
        [("d/adj_x", [[1]])] ⟨"d/adj_x", "d/pe_dim0_x", 0⟩ 0 0 0 false true =
        some ([[]], [("d/adj_x", [[1]]), ("d/pe_dim0_x", [[]])], true) →
      pos_enc (fun _ _ _ => ([], [])) [] (fun _ _ _ => [[]])
        [("d/adj_x", [[1]]), ("d/pe_dim0_x", [[]])]
        ⟨"d/adj_x", "d/pe_dim0_x", 0⟩ 0 0 0 false true =
        some ([[]], [("d/adj_x", [[1]]), ("d/pe_dim0_x", [[]])], false))) :=
  ⟨by decide,
   C2_cache_read_write (fun _ _ _ => ([], [])) [] (fun _ _ _ => [[]])
     [("d/adj_x", [[1]])] [("d/adj_x", [[1]]), ("d/pe_dim0_x", [[]])]
     ⟨"d/adj_x", "d/pe_dim0_x", 0⟩ 0 0 0 false [[9]] [[]] (by decide)⟩
